import Mathlib

/-!
# Verification of the nesify palette pipeline

This file gives a shallow embedding of the core of the `nesify` library
(`src/nesPalette.js`, `src/index.js`, `src/sort.js`) and proves properties of
the embedded definitions.

Modelling conventions:
* JS numbers that are used as integers are modelled as `ℕ` or `ℤ`.
* JS floating point arithmetic on distances is modelled over `ℝ`
  (`Math.sqrt` becomes `Real.sqrt`).
* An `ImageData` buffer is a flat byte list (`List ℕ`), 4 bytes (RGBA) per
  pixel, together with a width and a height, exactly as in the canvas API.
* A `#rrggbb` hex colour string is modelled by its 24-bit numeric value
  (`r * 65536 + g * 256 + b`); for byte triples this encoding is a bijection
  onto the set of such strings, and the lexicographic order on the lowercase
  fixed-width strings agrees with the numeric order.
* `Array.prototype.sort(cmp)` is modelled by the stable `List.mergeSort`
  with the relation `cmp a b ≤ 0`, matching the stable sort mandated by the
  ECMAScript specification.
* A JS object used as a string-keyed dictionary is modelled as an
  association list in insertion order (the keys in play are never
  integer-like, so `Object.keys` enumerates them in insertion order).
-/

namespace Nesify

/-! ## src/sort.js -/

def SORT_A_B_EQUAL : ℤ := 0

def SORT_A_FIRST : ℤ := -1

def SORT_B_FIRST : ℤ := 1

/-- `comparatorAscending` from `src/sort.js`, for any linearly ordered type of
JS values. -/
def comparatorAscending {α : Type _} [LinearOrder α] (a b : α) : ℤ :=
  if a = b then SORT_A_B_EQUAL
  else if a < b then SORT_A_FIRST else SORT_B_FIRST

/-- `comparatorDescending` from `src/sort.js`. -/
def comparatorDescending {α : Type _} [LinearOrder α] (a b : α) : ℤ :=
  if a = b then SORT_A_B_EQUAL
  else if a > b then SORT_A_FIRST else SORT_B_FIRST

/-- `Array.prototype.sort(cmp)`: a stable sort placing `a` before `b`
whenever `cmp a b < 0` and keeping the input order of ties. -/
def jsSort {α : Type _} (cmp : α → α → ℤ) (l : List α) : List α :=
  l.mergeSort (fun a b => decide (cmp a b ≤ 0))

/-! ## Colours

`rgb2hex` (from the `color-functions` dependency) turns a byte triple into a
six-digit lowercase hex string; we model the string by its numeric value. -/

/-- The 24-bit value of the `#rrggbb` string produced by `rgb2hex r g b`. -/
def rgb2hex (r g b : ℕ) : ℕ := r * 65536 + g * 256 + b

/-- An RGB triple, as produced by `normalizeColor` on an `[r, g, b]` array. -/
structure RGB where
  r : ℕ
  g : ℕ
  b : ℕ
deriving DecidableEq, Repr

/-- `normalizeColorHex` on an already normalized `[r,g,b]` colour: the value
of the `#rrggbb` string. -/
def normalizeColorHex (c : RGB) : ℕ := rgb2hex c.r c.g c.b

theorem rgb2hex_injective {r g b r2 g2 b2 : ℕ} (hg : g < 256) (hb : b < 256)
    (hg2 : g2 < 256) (hb2 : b2 < 256)
    (h : rgb2hex r g b = rgb2hex r2 g2 b2) : r = r2 ∧ g = g2 ∧ b = b2 := by
  simp only [rgb2hex] at h
  omega

/-! ## `enumeratePaletteOptions` (src/index.js lines 391-412)

```js
export function enumeratePaletteOptions(palette, maxColors) {
  if (maxColors === 0) {
    return [];
  } else if (maxColors === 1) {
    return palette.map(color => [color]);
  } else if (palette.length <= maxColors) {
    return [palette];
  }
  return palette.slice(0, (palette.length + 1) - maxColors)
    .reduce((subpalettes, firstColor, i) => {
      const restPalette = palette.slice(i + 1);
      const restPaletteOptions = enumeratePaletteOptions(restPalette, maxColors - 1);
      restPaletteOptions.forEach((restColors) => {
        const allColors = restColors.slice(0);
        allColors.unshift(firstColor);
        subpalettes.push(allColors);
      });
      return subpalettes;
    }, []);
}
```

The `reduce` with index over the slice is modelled as a `flatMap` over the
index-annotated prefix (`List.enum`). -/

def enumeratePaletteOptions {α : Type _} (palette : List α) (maxColors : ℕ) :
    List (List α) :=
  if maxColors = 0 then []
  else if maxColors = 1 then palette.map (fun color => [color])
  else if palette.length ≤ maxColors then [palette]
  else
    ((palette.take ((palette.length + 1) - maxColors)).enum).flatMap
      (fun ic =>
        (enumeratePaletteOptions (palette.drop (ic.1 + 1)) (maxColors - 1)).map
          (fun restColors => ic.2 :: restColors))
termination_by palette.length
decreasing_by
  simp only [List.length_drop]
  omega

theorem enumeratePaletteOptions_zero {α : Type _} (palette : List α) :
    enumeratePaletteOptions palette 0 = [] := by
  rw [enumeratePaletteOptions]
  simp

theorem enumeratePaletteOptions_one {α : Type _} (palette : List α) :
    enumeratePaletteOptions palette 1 = palette.map (fun color => [color]) := by
  rw [enumeratePaletteOptions]
  simp

theorem enumeratePaletteOptions_small {α : Type _} (palette : List α)
    (maxColors : ℕ) (h2 : 2 ≤ maxColors) (hlen : palette.length ≤ maxColors) :
    enumeratePaletteOptions palette maxColors = [palette] := by
  rw [enumeratePaletteOptions]
  rw [if_neg (by omega), if_neg (by omega), if_pos hlen]

theorem enumeratePaletteOptions_rec {α : Type _} (palette : List α)
    (maxColors : ℕ) (h2 : 2 ≤ maxColors) (hlen : maxColors < palette.length) :
    enumeratePaletteOptions palette maxColors =
      ((palette.take ((palette.length + 1) - maxColors)).enum).flatMap
        (fun ic =>
          (enumeratePaletteOptions (palette.drop (ic.1 + 1))
              (maxColors - 1)).map
            (fun restColors => ic.2 :: restColors)) := by
  rw [enumeratePaletteOptions]
  rw [if_neg (by omega), if_neg (by omega), if_neg (by omega)]

/-- Hockey-stick identity in list form: summing `(r + j - i).choose r` for
`i = 0 .. j` gives `(r + j + 1).choose (r + 1)`. -/
theorem sum_range_choose_desc (r : ℕ) :
    ∀ j : ℕ, (((List.range (j + 1)).map
      (fun i => (r + j - i).choose r)).sum) = (r + j + 1).choose (r + 1)
  | 0 => by
    rw [show List.range 1 = [0] from rfl]
    simp [Nat.choose_self]
  | j + 1 => by
    rw [List.range_succ_eq_map]
    simp only [List.map_cons, List.map_map, List.sum_cons]
    have hcomp : ((fun i => (r + (j + 1) - i).choose r) ∘ (· + 1)) =
        (fun i => (r + j - i).choose r) := by
      funext i
      simp only [Function.comp_apply]
      congr 1
      omega
    rw [hcomp, sum_range_choose_desc r j]
    have h0 : r + (j + 1) - 0 = r + j + 1 := by omega
    rw [h0]
    have harg : r + (j + 1) + 1 = r + j + 1 + 1 := by omega
    rw [harg]
    have h2 := Nat.choose_succ_succ (r + j + 1) r
    simp only [Nat.succ_eq_add_one] at h2
    omega

/-- Combinatorial specification of `enumeratePaletteOptions`: for a
duplicate-free palette of length `n` and `1 ≤ k ≤ n` it produces `C(n,k)`
pairwise-distinct combinations, each an order-preserving `k`-element
subsequence of the palette. -/
theorem enumeratePaletteOptions_spec {α : Type _} :
    ∀ (n : ℕ) (palette : List α) (k : ℕ), palette.length = n →
      1 ≤ k → k ≤ n → palette.Nodup →
      (enumeratePaletteOptions palette k).length = n.choose k ∧
      (enumeratePaletteOptions palette k).Nodup ∧
      (∀ s ∈ enumeratePaletteOptions palette k,
        s.Sublist palette ∧ s.length = k) := by
  intro n
  induction n using Nat.strong_induction_on with
  | _ n IH =>
    intro palette k hn hk1 hkn hnd
    subst hn
    by_cases hk : k = 1
    · subst hk
      rw [enumeratePaletteOptions_one]
      refine ⟨by simp, ?_, ?_⟩
      · exact hnd.map (fun a b h => by simpa using h)
      · intro s hs
        obtain ⟨c, hc, rfl⟩ := List.mem_map.mp hs
        exact ⟨List.singleton_sublist.mpr hc, rfl⟩
    · by_cases hsmall : palette.length ≤ k
      · have hnk : palette.length = k := le_antisymm hsmall hkn
        rw [enumeratePaletteOptions_small palette k (by omega) hsmall]
        refine ⟨by simp [hnk, Nat.choose_self], by simp, ?_⟩
        intro s hs
        rw [List.mem_singleton] at hs
        subst hs
        exact ⟨List.Sublist.refl _, hnk⟩
      · have hk2 : 2 ≤ k := by omega
        have hbig : k < palette.length := by omega
        rw [enumeratePaletteOptions_rec palette k hk2 hbig]
        have hL : (palette.take ((palette.length + 1) - k)).length =
            (palette.length + 1) - k := by
          rw [List.length_take]
          omega
        have hrec : ∀ i : ℕ, i < (palette.length + 1) - k →
            (enumeratePaletteOptions (palette.drop (i + 1))
                (k - 1)).length =
              (palette.length - (i + 1)).choose (k - 1) ∧
            (enumeratePaletteOptions (palette.drop (i + 1))
                (k - 1)).Nodup ∧
            (∀ s ∈ enumeratePaletteOptions (palette.drop (i + 1)) (k - 1),
              s.Sublist (palette.drop (i + 1)) ∧ s.length = k - 1) := by
          intro i hi
          exact IH (palette.length - (i + 1)) (by omega)
            (palette.drop (i + 1)) (k - 1) (List.length_drop _ _)
            (by omega) (by omega) (hnd.sublist (List.drop_sublist _ _))
        refine ⟨?_, ?_, ?_⟩
        · rw [List.length_flatMap]
          have hmap : (palette.take ((palette.length + 1) - k)).enum.map
                (List.length ∘ fun ic =>
                  ((enumeratePaletteOptions (palette.drop (ic.1 + 1))
                      (k - 1)).map
                    (fun restColors => ic.2 :: restColors))) =
              (palette.take ((palette.length + 1) - k)).enum.map
                (fun ic =>
                  ((k - 1) + (palette.length - k) - ic.1).choose (k - 1)) := by
            apply List.map_congr_left
            rw [List.forall_mem_enum]
            intro i hi
            rw [hL] at hi
            simp only [Function.comp_apply]
            rw [List.length_map, (hrec i hi).1]
            congr 1
            omega
          rw [hmap]
          rw [show (fun ic : ℕ × α =>
                ((k - 1) + (palette.length - k) - ic.1).choose (k - 1)) =
              ((fun i => ((k - 1) + (palette.length - k) - i).choose (k - 1)) ∘
                Prod.fst) from rfl]
          rw [← List.map_map, List.enum_map_fst, hL]
          rw [show (palette.length + 1) - k = (palette.length - k) + 1 by omega]
          rw [sum_range_choose_desc (k - 1) (palette.length - k)]
          rw [show (k - 1) + (palette.length - k) + 1 = palette.length by omega]
          rw [show (k - 1) + 1 = k by omega]
        · rw [List.nodup_flatMap]
          constructor
          · rw [List.forall_mem_enum]
            intro i hi
            rw [hL] at hi
            exact ((hrec i hi).2.1).map
              (fun xs ys h => by simpa using h)
          · rw [List.pairwise_iff_getElem]
            intro i j hi hj hij
            rw [List.enum_length] at hi hj
            simp only [List.getElem_enum, Function.onFun]
            intro s hsi hsj
            obtain ⟨r1, _, rfl⟩ := List.mem_map.mp hsi
            obtain ⟨r2, _, heq⟩ := List.mem_map.mp hsj
            injection heq with hheads htails
            have hndL : (palette.take ((palette.length + 1) - k)).Nodup :=
              hnd.sublist (List.take_sublist _ _)
            have : j = i := (hndL.getElem_inj_iff).mp hheads
            omega
        · intro s hs
          rw [List.mem_flatMap, List.exists_mem_enum] at hs
          obtain ⟨i, hi0, hsF⟩ := hs
          have hi : i < (palette.length + 1) - k := by rw [hL] at hi0; exact hi0
          obtain ⟨r, hr, rfl⟩ := List.mem_map.mp hsF
          have hip : i < palette.length := by omega
          have hri := (hrec i hi).2.2 r hr
          constructor
          · simp only [List.getElem_take]
            have hsub : List.Sublist (palette[i] :: r) (palette.drop i) := by
              rw [List.drop_eq_getElem_cons hip]
              exact hri.1.cons₂ _
            exact hsub.trans (List.drop_sublist _ _)
          · simp only [List.length_cons, hri.2]
            omega

/-- C3: for every local palette of `n` distinct colors and every target size
`k` with `1 ≤ k ≤ n`, `enumeratePaletteOptions(palette, k)` produces exactly
`C(n,k)` combinations, pairwise distinct, each preserving the relative order
of the input palette (each is a `k`-element subsequence of the palette); and
if the (nonempty) palette has fewer than `k` colors, the single full set is
the only option produced. -/
theorem C3_enumerate_combinations (palette : List RGB) (k : ℕ)
    (hnd : palette.Nodup) (hk : 1 ≤ k) (hne : 1 ≤ palette.length) :
    (k ≤ palette.length →
      (enumeratePaletteOptions palette k).length = palette.length.choose k ∧
      (enumeratePaletteOptions palette k).Nodup ∧
      (∀ s ∈ enumeratePaletteOptions palette k,
        s.Sublist palette ∧ s.length = k)) ∧
    (palette.length < k → enumeratePaletteOptions palette k = [palette]) := by
  constructor
  · intro hkn
    exact enumeratePaletteOptions_spec palette.length palette k rfl hk hkn hnd
  · intro hlt
    have hk2 : 2 ≤ k := by omega
    exact enumeratePaletteOptions_small palette k hk2 (by omega)

/-- Concrete instantiation of C3: the 5-colour palette from the spec's
scenario with k = 4 yields exactly `C(5,4) = 5` distinct combinations. -/
theorem C3_enumerate_combinations_witness :
    (enumeratePaletteOptions
      ([⟨255,0,0⟩, ⟨0,255,0⟩, ⟨0,0,255⟩, ⟨255,255,255⟩, ⟨0,0,0⟩] :
        List RGB) 4).length = Nat.choose 5 4 :=
  ((C3_enumerate_combinations
      ([⟨255,0,0⟩, ⟨0,255,0⟩, ⟨0,0,255⟩, ⟨255,255,255⟩, ⟨0,0,0⟩] :
        List RGB) 4
      (by decide) (by decide) (by decide)).1 (by decide)).1

/-! ## Image buffers (src/index.js lines 254-299)

```js
const RGBA_BYTES = 4;
export function rgbaOffset(offset) {
  return offset * RGBA_BYTES;
}

export function getImageDataSubsection(imgData, sx, sy, sw, sh) {
  const subImgData = new ImageData(sw, sh);
  for (let y = 0; y < sh; y += 1) {
    const start = rgbaOffset(sx + ((sy + y) * imgData.width));
    const length = rgbaOffset(sw);
    const offset = rgbaOffset(y * sw);
    subImgData.data.set(imgData.data.slice(start, start + length), offset);
  }
  return subImgData;
}
```
-/

structure ImageData where
  width : ℕ
  height : ℕ
  data : List ℕ
deriving DecidableEq, Repr

def RGBA_BYTES : ℕ := 4

def rgbaOffset (offset : ℕ) : ℕ := offset * RGBA_BYTES

/-- `TypedArray.prototype.slice(s, e)`: the bytes from index `s` (inclusive)
to `e` (exclusive), clamped to the array bounds. -/
def jsSlice (data : List ℕ) (s e : ℕ) : List ℕ := (data.drop s).take (e - s)

/-- `TypedArray.prototype.set(src, offset)`: overwrite `src.length` entries
of `target` starting at `offset` (every call site keeps the write in
bounds). -/
def jsTypedArraySet (target src : List ℕ) (offset : ℕ) : List ℕ :=
  target.take offset ++ (src ++ target.drop (offset + src.length))

/-- The row-copy loop of `getImageDataSubsection` after `n` iterations,
starting from the zero-initialised buffer of `new ImageData(sw, sh)`. -/
def subsectionRows (imgData : ImageData) (sx sy sw sh n : ℕ) : List ℕ :=
  (List.range n).foldl
    (fun acc y =>
      jsTypedArraySet acc
        (jsSlice imgData.data (rgbaOffset (sx + ((sy + y) * imgData.width)))
          (rgbaOffset (sx + ((sy + y) * imgData.width)) + rgbaOffset sw))
        (rgbaOffset (y * sw)))
    (List.replicate (rgbaOffset (sw * sh)) 0)

/-- `getImageDataSubsection`: run the row-copy loop for all `sh` rows. -/
def getImageDataSubsection (imgData : ImageData) (sx sy sw sh : ℕ) :
    ImageData :=
  ⟨sw, sh, subsectionRows imgData sx sy sw sh sh⟩

/-! ## `splitIntoTiles` (src/index.js lines 328-354) -/

structure Tile where
  x : ℕ
  y : ℕ
  srcPosition : ℕ × ℕ × ℕ × ℕ
  srcImgData : ImageData
deriving DecidableEq, Repr

/-- `Math.ceil(w / d)` for natural `w` and positive natural `d`. -/
def ceilDiv (w d : ℕ) : ℕ := (w + d - 1) / d

def splitIntoTiles (imgData : ImageData) (tileWidth tileHeight : ℕ) :
    List Tile :=
  let tilesX := ceilDiv imgData.width tileWidth
  let tilesY := ceilDiv imgData.height tileHeight
  (List.range tilesY).flatMap (fun y =>
    (List.range tilesX).map (fun x =>
      { x := x
        y := y
        srcPosition := (x * tileWidth, y * tileHeight, tileWidth, tileHeight)
        srcImgData :=
          getImageDataSubsection imgData (x * tileWidth) (y * tileHeight)
            tileWidth tileHeight }))

theorem subsectionRows_zero (imgData : ImageData) (sx sy sw sh : ℕ) :
    subsectionRows imgData sx sy sw sh 0 =
      List.replicate (rgbaOffset (sw * sh)) 0 := rfl

theorem subsectionRows_succ (imgData : ImageData) (sx sy sw sh n : ℕ) :
    subsectionRows imgData sx sy sw sh (n + 1) =
      jsTypedArraySet (subsectionRows imgData sx sy sw sh n)
        (jsSlice imgData.data (rgbaOffset (sx + ((sy + n) * imgData.width)))
          (rgbaOffset (sx + ((sy + n) * imgData.width)) + rgbaOffset sw))
        (rgbaOffset (n * sw)) := by
  unfold subsectionRows
  rw [List.range_succ, List.foldl_append]
  rfl

theorem jsSlice_length (data : List ℕ) (s e : ℕ) :
    (jsSlice data s e).length = min (e - s) (data.length - s) := by
  simp [jsSlice]

theorem jsSlice_getD (data : List ℕ) (s e i : ℕ) :
    (jsSlice data s e).getD i 0 =
      if i < e - s then data.getD (s + i) 0 else 0 := by
  unfold jsSlice
  rw [List.getD_eq_getElem?_getD]
  by_cases h1 : i < e - s
  · rw [if_pos h1, List.getElem?_take_of_lt h1, List.getElem?_drop,
      List.getD_eq_getElem?_getD]
  · rw [if_neg h1]
    have hlen : (List.take (e - s) (data.drop s)).length ≤ i := by
      rw [List.length_take]
      omega
    rw [List.getElem?_eq_none hlen]
    rfl

theorem jsTypedArraySet_length (target src : List ℕ) (offset : ℕ)
    (h : offset + src.length ≤ target.length) :
    (jsTypedArraySet target src offset).length = target.length := by
  simp only [jsTypedArraySet, List.length_append, List.length_take,
    List.length_drop]
  omega

theorem jsTypedArraySet_getD (target src : List ℕ) (offset j : ℕ)
    (h : offset + src.length ≤ target.length) :
    (jsTypedArraySet target src offset).getD j 0 =
      if j < offset then target.getD j 0
      else if j < offset + src.length then src.getD (j - offset) 0
      else target.getD j 0 := by
  have hoff : (target.take offset).length = offset := by
    rw [List.length_take]
    omega
  unfold jsTypedArraySet
  by_cases h1 : j < offset
  · rw [if_pos h1, List.getD_eq_getElem?_getD, List.getD_eq_getElem?_getD,
      List.getElem?_append_left (by rw [hoff]; exact h1),
      List.getElem?_take_of_lt h1]
  · rw [if_neg h1, List.getD_eq_getElem?_getD,
      List.getElem?_append_right (by rw [hoff]; omega), hoff]
    by_cases h2 : j < offset + src.length
    · rw [if_pos h2, List.getElem?_append_left (by omega),
      List.getD_eq_getElem?_getD]
    · rw [if_neg h2, List.getElem?_append_right (by omega),
        List.getElem?_drop,
        show offset + src.length + (j - offset - src.length) = j by omega,
        List.getD_eq_getElem?_getD]

/-- Invariant of the row-copy loop: after `n` of the `sh` iterations the
buffer still has its initial length, bytes below `rgbaOffset (n * sw)` hold
the flat-buffer source byte at
`rgbaOffset (sx + (sy + j / (4*sw)) * width) + j % (4*sw)` (zero when that
index is past the end of the source), and the remaining bytes are still
zero. -/
theorem subsectionRows_spec (imgData : ImageData) (sx sy sw sh : ℕ) :
    ∀ n, n ≤ sh →
      (subsectionRows imgData sx sy sw sh n).length = rgbaOffset (sw * sh) ∧
      ∀ j, j < rgbaOffset (sw * sh) →
        (subsectionRows imgData sx sy sw sh n).getD j 0 =
          if j < rgbaOffset (n * sw)
          then imgData.data.getD
            (rgbaOffset (sx + ((sy + j / rgbaOffset sw) * imgData.width)) +
              j % rgbaOffset sw) 0
          else 0 := by
  intro n
  induction n with
  | zero =>
    intro _
    refine ⟨by rw [subsectionRows_zero, List.length_replicate], ?_⟩
    intro j hj
    rw [subsectionRows_zero,
      if_neg (by simp only [rgbaOffset, RGBA_BYTES]; omega),
      List.getD_eq_getElem?_getD, List.getElem?_replicate_of_lt hj]
    rfl
  | succ n IH =>
    intro hn1
    obtain ⟨IHlen, IHget⟩ := IH (by omega)
    rw [subsectionRows_succ]
    set start := rgbaOffset (sx + ((sy + n) * imgData.width)) with hstart
    set src := jsSlice imgData.data start (start + rgbaOffset sw) with hsrc
    set offset := rgbaOffset (n * sw) with hoffset
    have hsrclen : src.length =
        min (start + rgbaOffset sw - start) (imgData.data.length - start) := by
      rw [hsrc]
      exact jsSlice_length _ _ _
    have hsrcle : src.length ≤ rgbaOffset sw := by omega
    have hmul : offset + rgbaOffset sw = rgbaOffset ((n + 1) * sw) := by
      rw [hoffset]
      simp only [rgbaOffset, RGBA_BYTES]
      ring
    have hle2 : rgbaOffset ((n + 1) * sw) ≤ rgbaOffset (sw * sh) := by
      simp only [rgbaOffset, RGBA_BYTES]
      have hmle : (n + 1) * sw ≤ sh * sw := Nat.mul_le_mul_right sw hn1
      have hcomm : sh * sw = sw * sh := Nat.mul_comm sh sw
      omega
    have hbound : offset + src.length ≤
        (subsectionRows imgData sx sy sw sh n).length := by
      rw [IHlen]
      omega
    refine ⟨by rw [jsTypedArraySet_length _ _ _ hbound, IHlen], ?_⟩
    intro j hj
    have hsw : 0 < sw := by
      rcases Nat.eq_zero_or_pos sw with h0 | h0
      · rw [h0] at hj
        simp only [rgbaOffset, RGBA_BYTES] at hj
        omega
      · exact h0
    have hsw4 : 0 < rgbaOffset sw := by
      simp only [rgbaOffset, RGBA_BYTES]
      omega
    have hoffeq : offset = rgbaOffset sw * n := by
      rw [hoffset]
      simp only [rgbaOffset, RGBA_BYTES]
      ring
    rw [jsTypedArraySet_getD _ _ _ _ hbound]
    by_cases h1 : j < offset
    · rw [if_pos h1, IHget j hj, if_pos h1, if_pos (by omega)]
    · by_cases h2 : j < offset + src.length
      · have hlt : j - offset < rgbaOffset sw := by omega
        have hjdecomp : j = rgbaOffset sw * n + (j - offset) := by omega
        have hdiv : j / rgbaOffset sw = n := by
          conv_lhs => rw [hjdecomp]
          rw [Nat.mul_add_div hsw4, Nat.div_eq_of_lt hlt]
          omega
        have hmod : j % rgbaOffset sw = j - offset := by
          conv_lhs => rw [hjdecomp]
          rw [Nat.mul_add_mod]
          exact Nat.mod_eq_of_lt hlt
        rw [if_neg h1, if_pos h2, hsrc, jsSlice_getD,
          if_pos (by omega), if_pos (by omega), hdiv, hmod]
      · rw [if_neg h1, if_neg h2, IHget j hj, if_neg (by omega)]
        by_cases h3 : j < rgbaOffset ((n + 1) * sw)
        · have hlt : j - offset < rgbaOffset sw := by omega
          have hjdecomp : j = rgbaOffset sw * n + (j - offset) := by omega
          have hdiv : j / rgbaOffset sw = n := by
            conv_lhs => rw [hjdecomp]
            rw [Nat.mul_add_div hsw4, Nat.div_eq_of_lt hlt]
            omega
          have hmod : j % rgbaOffset sw = j - offset := by
            conv_lhs => rw [hjdecomp]
            rw [Nat.mul_add_mod]
            exact Nat.mod_eq_of_lt hlt
          rw [if_pos h3, hdiv, hmod]
          exact (List.getD_eq_default _ _ (by omega)).symm
        · rw [if_neg h3]

/-- The bytes of `getImageDataSubsection`: byte `j` of the subsection is the
source byte at flat-buffer index
`rgbaOffset (sx + (sy + j / (4*sw)) * width) + j % (4*sw)` (zero when that
index is out of range). A tile that extends past the right edge of the image
therefore copies bytes that continue into the following image row. -/
theorem getImageDataSubsection_getD (imgData : ImageData) (sx sy sw sh : ℕ) :
    (getImageDataSubsection imgData sx sy sw sh).data.length =
      rgbaOffset (sw * sh) ∧
    ∀ j, j < rgbaOffset (sw * sh) →
      (getImageDataSubsection imgData sx sy sw sh).data.getD j 0 =
        imgData.data.getD
          (rgbaOffset (sx + ((sy + j / rgbaOffset sw) * imgData.width)) +
            j % rgbaOffset sw) 0 := by
  obtain ⟨hlen, hget⟩ := subsectionRows_spec imgData sx sy sw sh sh le_rfl
  refine ⟨hlen, ?_⟩
  intro j hj
  have hflat : (getImageDataSubsection imgData sx sy sw sh).data =
      subsectionRows imgData sx sy sw sh sh := rfl
  rw [hflat, hget j hj, if_pos (by
    simp only [rgbaOffset, RGBA_BYTES] at hj ⊢
    have hcomm : sh * sw = sw * sh := Nat.mul_comm sh sw
    omega)]

/-- A row-major double loop over a `ny × nx` grid, flattened: entry `i`
comes from row `i / nx` and column `i % nx`. -/
theorem range_flatMap_map {α : Type _} (f : ℕ → ℕ → α) (ny nx : ℕ) :
    (List.range ny).flatMap (fun y => (List.range nx).map (f y)) =
      (List.range (ny * nx)).map (fun i => f (i / nx) (i % nx)) := by
  induction ny with
  | zero => simp
  | succ n ihn =>
    rw [List.range_succ, List.flatMap_append, ihn,
      show (n + 1) * nx = n * nx + nx from by ring, List.range_add,
      List.map_append]
    congr 1
    simp only [List.flatMap_cons, List.flatMap_nil, List.append_nil,
      List.map_map]
    apply List.map_congr_left
    intro j hj
    rw [List.mem_range] at hj
    simp only [Function.comp_apply]
    have hnx : 0 < nx := by omega
    have hdiv : (n * nx + j) / nx = n := by
      rw [show n * nx + j = nx * n + j from by ring,
        Nat.mul_add_div hnx, Nat.div_eq_of_lt hj]
      omega
    have hmod : (n * nx + j) % nx = j := by
      rw [show n * nx + j = nx * n + j from by ring, Nat.mul_add_mod]
      exact Nat.mod_eq_of_lt hj
    rw [hdiv, hmod]

/-- `splitIntoTiles` flattened to a single row-major index. -/
theorem splitIntoTiles_eq (imgData : ImageData) (tileWidth tileHeight : ℕ) :
    splitIntoTiles imgData tileWidth tileHeight =
      (List.range (ceilDiv imgData.height tileHeight *
          ceilDiv imgData.width tileWidth)).map
        (fun i =>
          { x := i % ceilDiv imgData.width tileWidth
            y := i / ceilDiv imgData.width tileWidth
            srcPosition :=
              ((i % ceilDiv imgData.width tileWidth) * tileWidth,
               (i / ceilDiv imgData.width tileWidth) * tileHeight,
               tileWidth, tileHeight)
            srcImgData :=
              getImageDataSubsection imgData
                ((i % ceilDiv imgData.width tileWidth) * tileWidth)
                ((i / ceilDiv imgData.width tileWidth) * tileHeight)
                tileWidth tileHeight }) := by
  unfold splitIntoTiles
  exact range_flatMap_map _ _ _

theorem splitIntoTiles_length (imgData : ImageData)
    (tileWidth tileHeight : ℕ) :
    (splitIntoTiles imgData tileWidth tileHeight).length =
      ceilDiv imgData.width tileWidth * ceilDiv imgData.height tileHeight := by
  rw [splitIntoTiles_eq, List.length_map, List.length_range, Nat.mul_comm]

theorem splitIntoTiles_getElem? (imgData : ImageData)
    (tileWidth tileHeight : ℕ) (i : ℕ)
    (h : i < ceilDiv imgData.height tileHeight *
        ceilDiv imgData.width tileWidth) :
    (splitIntoTiles imgData tileWidth tileHeight)[i]? =
      some
      { x := i % ceilDiv imgData.width tileWidth
        y := i / ceilDiv imgData.width tileWidth
        srcPosition :=
          ((i % ceilDiv imgData.width tileWidth) * tileWidth,
           (i / ceilDiv imgData.width tileWidth) * tileHeight,
           tileWidth, tileHeight)
        srcImgData :=
          getImageDataSubsection imgData
            ((i % ceilDiv imgData.width tileWidth) * tileWidth)
            ((i / ceilDiv imgData.width tileWidth) * tileHeight)
            tileWidth tileHeight } := by
  rw [splitIntoTiles_eq, List.getElem?_map, List.getElem?_range h]
  rfl

theorem div_lt_ceilDiv (w d p : ℕ) (hd : 0 < d) (hp : p < w) :
    p / d < ceilDiv w d := by
  unfold ceilDiv
  have hw : 1 ≤ w := by omega
  rw [show w + d - 1 = (w - 1) + d from by omega, Nat.add_div_right _ hd]
  have h2 : p / d ≤ (w - 1) / d := Nat.div_le_div_right (by omega)
  omega

theorem div_mul_bounds (p d : ℕ) (hd : 0 < d) :
    p / d * d ≤ p ∧ p < p / d * d + d := by
  have h1 := Nat.div_add_mod p d
  have h2 := Nat.mod_lt p hd
  have h3 : d * (p / d) = p / d * d := Nat.mul_comm _ _
  omega

/-- Tile-region partition: every in-bounds pixel lies in the region of
exactly one tile of `splitIntoTiles`. -/
theorem splitIntoTiles_coverage (imgData : ImageData)
    (tileWidth tileHeight : ℕ) (htw : 0 < tileWidth) (hth : 0 < tileHeight)
    (px py : ℕ) (hpx : px < imgData.width) (hpy : py < imgData.height) :
    ∃! t : Tile, t ∈ splitIntoTiles imgData tileWidth tileHeight ∧
      t.x * tileWidth ≤ px ∧ px < t.x * tileWidth + tileWidth ∧
      t.y * tileHeight ≤ py ∧ py < t.y * tileHeight + tileHeight := by
  have hbx := div_mul_bounds px tileWidth htw
  have hby := div_mul_bounds py tileHeight hth
  refine ⟨{ x := px / tileWidth
            y := py / tileHeight
            srcPosition :=
              ((px / tileWidth) * tileWidth, (py / tileHeight) * tileHeight,
               tileWidth, tileHeight)
            srcImgData :=
              getImageDataSubsection imgData ((px / tileWidth) * tileWidth)
                ((py / tileHeight) * tileHeight) tileWidth tileHeight },
    ⟨?_, hbx.1, hbx.2, hby.1, hby.2⟩, ?_⟩
  · unfold splitIntoTiles
    rw [List.mem_flatMap]
    exact ⟨py / tileHeight,
      List.mem_range.mpr (div_lt_ceilDiv _ _ _ hth hpy),
      List.mem_map.mpr ⟨px / tileWidth,
        List.mem_range.mpr (div_lt_ceilDiv _ _ _ htw hpx), rfl⟩⟩
  · rintro t ⟨hmem, hx1, hx2, hy1, hy2⟩
    unfold splitIntoTiles at hmem
    rw [List.mem_flatMap] at hmem
    obtain ⟨y, hy, hmem2⟩ := hmem
    obtain ⟨x, hx, rfl⟩ := List.mem_map.mp hmem2
    have hxe : px / tileWidth = x :=
      Nat.div_eq_of_lt_le (by simpa using hx1)
        (by rw [Nat.succ_mul]; simpa using hx2)
    have hye : py / tileHeight = y :=
      Nat.div_eq_of_lt_le (by simpa using hy1)
        (by rw [Nat.succ_mul]; simpa using hy2)
    rw [← hxe, ← hye]

/-- Modelled from the spec (§4.2, claim C4): "the final row/column of tiles
may extend past the image bounds and must be handled by clamping the copied
region (no wraparound, no padding color)". Sub-pixel `(u, v)` of the copied
region holds the source pixel at `(sx + u, sy + v)` when that position is
inside the image, and nothing (zero) otherwise. -/
def clampedCopySpec (imgData : ImageData) (sx sy sw sh : ℕ)
    (sub : ImageData) : Prop :=
  ∀ u < sw, ∀ v < sh, ∀ c < RGBA_BYTES,
    sub.data.getD (rgbaOffset (v * sw + u) + c) 0 =
      if sx + u < imgData.width ∧ sy + v < imgData.height
      then imgData.data.getD
        (rgbaOffset ((sy + v) * imgData.width + (sx + u)) + c) 0
      else 0

instance clampedCopySpec.instDecidable (imgData : ImageData)
    (sx sy sw sh : ℕ) (sub : ImageData) :
    Decidable (clampedCopySpec imgData sx sy sw sh sub) := by
  unfold clampedCopySpec
  infer_instance

/-- C4 counterexample: on a 3×2 image split into 2×1 tiles, the copied
pixel region of the right-edge tiles is not clamped to the image bounds —
the second column of tile `(1, 0)` receives the first pixel of the next
image row (flat-buffer wraparound), refuting the no-wraparound clause of the
claim at this concrete input. -/
theorem C4_clamped_copy_counterexample :
    ¬ ∀ t ∈ splitIntoTiles ⟨3, 2, List.range 24⟩ 2 1,
        clampedCopySpec ⟨3, 2, List.range 24⟩ t.srcPosition.1
          t.srcPosition.2.1 t.srcPosition.2.2.1 t.srcPosition.2.2.2
          t.srcImgData := by
  decide

/-- C4 (amended): for a positive tile size, `splitIntoTiles` produces
exactly `ceil(W/tw) * ceil(H/th)` tiles in row-major order, the tile
regions partition `[0,W) × [0,H)` with no overlap and no gaps, and each
tile's copied bytes follow the flat-buffer slice semantics of
`getImageDataSubsection`: byte `j` of the tile at source position
`(sx, sy)` is the source byte at flat index
`rgbaOffset (sx + (sy + j / (4·tw)) · W) + j % (4·tw)` (zero past the end
of the buffer), so a partial right-edge tile copies bytes that wrap into
the following image row instead of being clamped. -/
theorem C4_splitIntoTiles_grid (imgData : ImageData) (tw th : ℕ)
    (htw : 0 < tw) (hth : 0 < th) :
    (splitIntoTiles imgData tw th).length =
      ceilDiv imgData.width tw * ceilDiv imgData.height th ∧
    (∀ i, i < ceilDiv imgData.height th * ceilDiv imgData.width tw →
      ∃ t, (splitIntoTiles imgData tw th)[i]? = some t ∧
        t.x = i % ceilDiv imgData.width tw ∧
        t.y = i / ceilDiv imgData.width tw ∧
        t.srcPosition = (t.x * tw, t.y * th, tw, th)) ∧
    (∀ px py, px < imgData.width → py < imgData.height →
      ∃! t : Tile, t ∈ splitIntoTiles imgData tw th ∧
        t.x * tw ≤ px ∧ px < t.x * tw + tw ∧
        t.y * th ≤ py ∧ py < t.y * th + th) ∧
    (∀ t ∈ splitIntoTiles imgData tw th,
      t.srcImgData.data.length = rgbaOffset (tw * th) ∧
      ∀ j, j < rgbaOffset (tw * th) →
        t.srcImgData.data.getD j 0 =
          imgData.data.getD
            (rgbaOffset (t.srcPosition.1 +
                ((t.srcPosition.2.1 + j / rgbaOffset tw) * imgData.width)) +
              j % rgbaOffset tw) 0) := by
  refine ⟨splitIntoTiles_length imgData tw th, ?_, ?_, ?_⟩
  · intro i hi
    exact ⟨_, splitIntoTiles_getElem? imgData tw th i hi, rfl, rfl, rfl⟩
  · intro px py hpx hpy
    exact splitIntoTiles_coverage imgData tw th htw hth px py hpx hpy
  · intro t hmem
    unfold splitIntoTiles at hmem
    rw [List.mem_flatMap] at hmem
    obtain ⟨y, hy, hmem2⟩ := hmem
    obtain ⟨x, hx, rfl⟩ := List.mem_map.mp hmem2
    exact ⟨(getImageDataSubsection_getD imgData (x * tw) (y * th) tw th).1,
      fun j hj =>
        (getImageDataSubsection_getD imgData (x * tw) (y * th) tw th).2 j hj⟩

/-- Concrete instantiation of the amended C4: a 3×2 image with 2×1 tiles
yields a 2×2 grid of tiles. -/
theorem C4_splitIntoTiles_grid_witness :
    (splitIntoTiles ⟨3, 2, List.range 24⟩ 2 1).length =
      ceilDiv 3 2 * ceilDiv 2 1 :=
  (C4_splitIntoTiles_grid ⟨3, 2, List.range 24⟩ 2 1
    (by decide) (by decide)).1

/-! ## JS objects as string-keyed dictionaries

The keyed collections (`colorsUsedByKey`, `subpalettesByKey`) are JS
objects whose keys are hex-colour or palette-key strings (never
integer-like), so `Object.keys` enumerates them in insertion order. They
are modelled as association lists in insertion order; assigning to an
existing key updates it in place, assigning to a fresh key appends. -/

def jsGet {κ ν : Type _} [DecidableEq κ] (m : List (κ × ν)) (k : κ) :
    Option ν :=
  (m.find? (fun e => decide (e.1 = k))).map Prod.snd

def jsPut {κ ν : Type _} [DecidableEq κ] (m : List (κ × ν)) (k : κ) (v : ν) :
    List (κ × ν) :=
  if (m.find? (fun e => decide (e.1 = k))).isSome
  then m.map (fun e => if e.1 = k then (k, v) else e)
  else m ++ [(k, v)]

def jsDelete {κ ν : Type _} [DecidableEq κ] (m : List (κ × ν)) (k : κ) :
    List (κ × ν) :=
  m.filter (fun e => decide (e.1 ≠ k))

theorem jsGet_mem {κ ν : Type _} [DecidableEq κ] {m : List (κ × ν)} {k : κ}
    {u : ν} (h : jsGet m k = some u) : (k, u) ∈ m := by
  unfold jsGet at h
  obtain ⟨e, he, heq⟩ := Option.map_eq_some'.mp h
  have hmem := List.mem_of_find?_eq_some he
  have hkey := List.find?_some he
  rw [decide_eq_true_eq] at hkey
  obtain ⟨e1, e2⟩ := e
  subst heq
  rw [show e1 = k from hkey] at hmem
  exact hmem

theorem jsGet_eq_none {κ ν : Type _} [DecidableEq κ] {m : List (κ × ν)}
    {k : κ} (h : jsGet m k = none) : ∀ e ∈ m, e.1 ≠ k := by
  unfold jsGet at h
  rw [Option.map_eq_none'] at h
  intro e he
  have := List.find?_eq_none.mp h e he
  rwa [decide_eq_true_eq] at this

theorem jsPut_map_fst_of_isSome {κ ν : Type _} [DecidableEq κ]
    {m : List (κ × ν)} {k : κ} (v : ν)
    (h : (m.find? (fun e => decide (e.1 = k))).isSome) :
    (jsPut m k v).map Prod.fst = m.map Prod.fst := by
  unfold jsPut
  rw [if_pos h, List.map_map]
  apply List.map_congr_left
  intro e _
  simp only [Function.comp_apply]
  by_cases hk : e.1 = k
  · rw [if_pos hk, hk]
  · rw [if_neg hk]

theorem jsPut_map_fst_of_none {κ ν : Type _} [DecidableEq κ]
    {m : List (κ × ν)} {k : κ} (v : ν)
    (h : ¬ (m.find? (fun e => decide (e.1 = k))).isSome) :
    (jsPut m k v).map Prod.fst = m.map Prod.fst ++ [k] := by
  unfold jsPut
  rw [if_neg h, List.map_append]
  rfl

/-! ## `getLocalPalette` (src/index.js lines 362-381)

```js
export function getLocalPalette(imgData) {
  const colorsUsedByKey = {};
  const dataLength = imgData.data.length;
  for (let i = 0; i < dataLength; i += RGBA_BYTES) {
    const color = arrayProto.slice.call(imgData.data, i, i + 3);
    const key = colorKey(color);
    const colorUsed = colorsUsedByKey[key] || { key, color, pixelsUsing: 0 };
    colorUsed.pixelsUsing += 1;
    colorsUsedByKey[key] = colorUsed;
  }
  return Object.keys(colorsUsedByKey)
    .map(key => colorsUsedByKey[key])
    .sort((a, b) => comparatorDescending(a.pixelsUsing, b.pixelsUsing));
}
```

The 3-byte `slice` at pixel offset `i` is modelled by reading the three
bytes `i`, `i+1`, `i+2` of the flat buffer (the buffer holds 4 bytes per
pixel, so the reads are in bounds). -/

/-- `colorKey` (src/index.js line 259): the canonical hex key of a colour. -/
def colorKey (color : RGB) : ℕ := normalizeColorHex color

structure ColorUsed where
  key : ℕ
  color : RGB
  pixelsUsing : ℕ
deriving DecidableEq, Repr

/-- One iteration of the `getLocalPalette` loop body at pixel offset `i`. -/
def localPaletteStep (data : List ℕ) (i : ℕ)
    (colorsUsedByKey : List (ℕ × ColorUsed)) : List (ℕ × ColorUsed) :=
  let color : RGB := ⟨data.getD i 0, data.getD (i + 1) 0, data.getD (i + 2) 0⟩
  let key := colorKey color
  let colorUsed := (jsGet colorsUsedByKey key).getD
    { key := key, color := color, pixelsUsing := 0 }
  jsPut colorsUsedByKey key
    { colorUsed with pixelsUsing := colorUsed.pixelsUsing + 1 }

def getLocalPaletteLoop (data : List ℕ) (i : ℕ)
    (colorsUsedByKey : List (ℕ × ColorUsed)) : List (ℕ × ColorUsed) :=
  if _h : i < data.length then
    getLocalPaletteLoop data (i + RGBA_BYTES)
      (localPaletteStep data i colorsUsedByKey)
  else colorsUsedByKey
termination_by data.length - i
decreasing_by
  simp only [RGBA_BYTES]
  omega

def getLocalPalette (imgData : ImageData) : List ColorUsed :=
  jsSort (fun a b => comparatorDescending a.pixelsUsing b.pixelsUsing)
    ((getLocalPaletteLoop imgData.data 0 []).map Prod.snd)

theorem jsSort_perm {α : Type _} (cmp : α → α → ℤ) (l : List α) :
    (jsSort cmp l).Perm l :=
  List.mergeSort_perm l _

/-- Updating the (unique) entry of an association list at a present key
exchanges its `f`-value in the total sum. -/
theorem assoc_update_sum {ν : Type _} (f : ν → ℕ) :
    ∀ (m : List (ℕ × ν)) (k : ℕ) (v u : ν),
      (m.map Prod.fst).Nodup → jsGet m k = some u →
      ((m.map (fun e => if e.1 = k then (k, v) else e)).map
          (fun e => f e.2)).sum + f u =
        (m.map (fun e => f e.2)).sum + f v
  | [], k, v, u, _, hget => by simp [jsGet] at hget
  | (e1, e2) :: rest, k, v, u, hnd, hget => by
    by_cases hk : e1 = k
    · subst hk
      have hg : jsGet ((e1, e2) :: rest) e1 = some e2 := by
        unfold jsGet
        rw [List.find?_cons_of_pos _ (by simp)]
        rfl
      rw [hg] at hget
      have hu : u = e2 := (Option.some.inj hget).symm
      subst hu
      have hknot : ∀ e ∈ rest, e.1 ≠ e1 := by
        intro e he
        simp only [List.map_cons, List.nodup_cons] at hnd
        intro hcontra
        exact hnd.1 (hcontra ▸ List.mem_map_of_mem Prod.fst he)
      have hrest : rest.map (fun e => if e.1 = e1 then (e1, v) else e) =
          rest.map id := by
        apply List.map_congr_left
        intro e he
        rw [if_neg (hknot e he), id]
      simp only [List.map_cons, List.sum_cons, hrest, List.map_id, if_pos]
      omega
    · have hg : jsGet ((e1, e2) :: rest) k = jsGet rest k := by
        unfold jsGet
        rw [List.find?_cons_of_neg _ (by simpa using hk)]
      rw [hg] at hget
      simp only [List.map_cons, List.nodup_cons] at hnd
      have ih := assoc_update_sum f rest k v u hnd.2 hget
      simp only [List.map_cons, List.sum_cons, if_neg hk]
      omega

/-- Updating an association list at a key leaves the key sequence
unchanged. -/
theorem assoc_update_map_fst {ν : Type _} (m : List (ℕ × ν)) (k : ℕ)
    (v : ν) :
    (m.map (fun e => if e.1 = k then (k, v) else e)).map Prod.fst =
      m.map Prod.fst := by
  rw [List.map_map]
  apply List.map_congr_left
  intro e _
  simp only [Function.comp_apply]
  by_cases h0 : e.1 = k
  · rw [if_pos h0, h0]
  · rw [if_neg h0]

/-- One loop iteration of `getLocalPalette` keeps the keys duplicate-free,
keeps each record's `key` field equal to its map key, and adds exactly one
to the total `pixelsUsing` count. -/
theorem localPaletteStep_inv (data : List ℕ) (i : ℕ)
    (m : List (ℕ × ColorUsed))
    (hnd : (m.map Prod.fst).Nodup) (hkey : ∀ e ∈ m, e.2.key = e.1) :
    ((localPaletteStep data i m).map Prod.fst).Nodup ∧
    (∀ e ∈ localPaletteStep data i m, e.2.key = e.1) ∧
    ((localPaletteStep data i m).map (fun e => e.2.pixelsUsing)).sum =
      (m.map (fun e => e.2.pixelsUsing)).sum + 1 := by
  simp only [localPaletteStep]
  set c := colorKey ⟨data.getD i 0, data.getD (i + 1) 0, data.getD (i + 2) 0⟩
    with hc
  cases hg : jsGet m c with
  | none =>
    have hfind : m.find? (fun e => decide (e.1 = c)) = none := by
      unfold jsGet at hg
      exact Option.map_eq_none'.mp hg
    have hnotin : ∀ e ∈ m, e.1 ≠ c := jsGet_eq_none hg
    simp only [Option.getD_none]
    rw [jsPut, if_neg (by rw [hfind]; simp)]
    refine ⟨?_, ?_, ?_⟩
    · rw [List.map_append, List.nodup_append]
      refine ⟨hnd, by simp, ?_⟩
      intro a ha hb
      simp only [List.map_cons, List.map_nil, List.mem_singleton] at hb
      obtain ⟨e, he, rfl⟩ := List.mem_map.mp ha
      exact hnotin e he hb
    · intro e he
      rw [List.mem_append] at he
      rcases he with he | he
      · exact hkey e he
      · rw [List.mem_singleton] at he
        subst he
        rfl
    · rw [List.map_append, List.sum_append]
      rfl
  | some u =>
    have hfind : (m.find? (fun e => decide (e.1 = c))).isSome := by
      unfold jsGet at hg
      rcases hff : m.find? (fun e => decide (e.1 = c)) with _ | e
      · rw [hff] at hg
        simp at hg
      · rw [hff]
        rfl
    have humem : (c, u) ∈ m := jsGet_mem hg
    have hukey : u.key = c := hkey (c, u) humem
    simp only [Option.getD_some]
    rw [jsPut, if_pos hfind]
    refine ⟨?_, ?_, ?_⟩
    · rw [assoc_update_map_fst]
      exact hnd
    · intro e he
      obtain ⟨e0, he0, heq⟩ := List.mem_map.mp he
      by_cases h0 : e0.1 = c
      · rw [if_pos h0] at heq
        subst heq
        exact hukey
      · rw [if_neg h0] at heq
        subst heq
        exact hkey e0 he0
    · have hupd := assoc_update_sum (fun v => v.pixelsUsing) m c
        { u with pixelsUsing := u.pixelsUsing + 1 } u hnd hg
      simp only [] at hupd ⊢
      omega

/-- Invariant of the whole `getLocalPalette` loop: starting from a
well-formed table at pixel offset `i`, the final table is well-formed and
its total `pixelsUsing` count has grown by the number of remaining loop
iterations, `ceil((length - i) / 4)`. -/
theorem getLocalPaletteLoop_spec (data : List ℕ) :
    ∀ (fuel i : ℕ) (m : List (ℕ × ColorUsed)),
      data.length - i ≤ fuel →
      (m.map Prod.fst).Nodup → (∀ e ∈ m, e.2.key = e.1) →
      (((getLocalPaletteLoop data i m).map Prod.fst).Nodup ∧
        (∀ e ∈ getLocalPaletteLoop data i m, e.2.key = e.1)) ∧
      ((getLocalPaletteLoop data i m).map (fun e => e.2.pixelsUsing)).sum =
        (m.map (fun e => e.2.pixelsUsing)).sum +
          ceilDiv (data.length - i) RGBA_BYTES := by
  intro fuel
  induction fuel with
  | zero =>
    intro i m hfuel hnd hkey
    rw [getLocalPaletteLoop, dif_neg (by omega)]
    refine ⟨⟨hnd, hkey⟩, ?_⟩
    rw [show data.length - i = 0 from by omega]
    simp [ceilDiv, RGBA_BYTES]
  | succ fuel ih =>
    intro i m hfuel hnd hkey
    by_cases hlt : i < data.length
    · rw [getLocalPaletteLoop, dif_pos hlt]
      obtain ⟨hnd2, hkey2, hsum2⟩ := localPaletteStep_inv data i m hnd hkey
      obtain ⟨hinv3, hsum3⟩ := ih (i + RGBA_BYTES) (localPaletteStep data i m)
        (by simp only [RGBA_BYTES] at *; omega) hnd2 hkey2
      refine ⟨hinv3, ?_⟩
      rw [hsum3, hsum2]
      simp only [ceilDiv, RGBA_BYTES]
      omega
    · rw [getLocalPaletteLoop, dif_neg hlt]
      refine ⟨⟨hnd, hkey⟩, ?_⟩
      rw [show data.length - i = 0 from by omega]
      simp [ceilDiv, RGBA_BYTES]

/-- C10: the records returned by `getLocalPalette` have pairwise-distinct
colour keys, and their `pixelsUsing` counts sum to the number of pixels in
the buffer (data length divided by the 4 bytes per pixel). -/
theorem C10_getLocalPalette_keys_and_sum (imgData : ImageData) (n : ℕ)
    (hlen : imgData.data.length = RGBA_BYTES * n) :
    ((getLocalPalette imgData).map (fun c => c.key)).Nodup ∧
    ((getLocalPalette imgData).map (fun c => c.pixelsUsing)).sum =
      imgData.data.length / RGBA_BYTES := by
  obtain ⟨⟨hnd, hkey⟩, hsum⟩ := getLocalPaletteLoop_spec imgData.data
    imgData.data.length 0 [] (by omega) (by simp) (by simp)
  unfold getLocalPalette
  have hperm := jsSort_perm
    (fun a b : ColorUsed => comparatorDescending a.pixelsUsing b.pixelsUsing)
    ((getLocalPaletteLoop imgData.data 0 []).map Prod.snd)
  constructor
  · have hkeys : (((getLocalPaletteLoop imgData.data 0 []).map
        Prod.snd).map (fun c => c.key)) =
        (getLocalPaletteLoop imgData.data 0 []).map Prod.fst := by
      rw [List.map_map]
      apply List.map_congr_left
      intro e he
      exact hkey e he
    exact ((hperm.map (fun c => c.key)).nodup_iff).mpr (hkeys ▸ hnd)
  · have hsums := (hperm.map (fun c => c.pixelsUsing)).sum_eq
    rw [hsums, List.map_map]
    have hcomp : ((getLocalPaletteLoop imgData.data 0 []).map
        ((fun c : ColorUsed => c.pixelsUsing) ∘ Prod.snd)) =
        (getLocalPaletteLoop imgData.data 0 []).map
          (fun e => e.2.pixelsUsing) := rfl
    rw [hcomp, hsum]
    simp only [List.map_nil, List.sum_nil, Nat.zero_add, Nat.sub_zero,
      ceilDiv, RGBA_BYTES, hlen]
    omega

/-- Concrete instantiation of C10 on a two-pixel buffer. -/
theorem C10_getLocalPalette_keys_and_sum_witness :
    ((getLocalPalette ⟨1, 2, [1, 2, 3, 0, 1, 2, 3, 0]⟩).map
      (fun c => c.key)).Nodup ∧
    ((getLocalPalette ⟨1, 2, [1, 2, 3, 0, 1, 2, 3, 0]⟩).map
      (fun c => c.pixelsUsing)).sum = 8 / RGBA_BYTES :=
  C10_getLocalPalette_keys_and_sum ⟨1, 2, [1, 2, 3, 0, 1, 2, 3, 0]⟩ 2
    (by decide)

/-! ## Colour distance (src/nesPalette.js lines 163-171)

```js
export function colorDistance(a, b) {
  const colorA = normalizeColor(a);
  const colorB = normalizeColor(b);
  return Math.sqrt((
    ((colorA[0] - colorB[0]) ** 2) +
    ((colorA[1] - colorB[1]) ** 2) +
    ((colorB[2] - colorB[2]) ** 2)
  ));
}
```

Note the third term: the source subtracts `colorB[2]` from itself, so the
blue channel of `colorA` never enters the result. The definition below
reproduces that term verbatim. -/

noncomputable def colorDistance (a b : RGB) : ℝ :=
  Real.sqrt ((((a.r : ℝ) - (b.r : ℝ)) ^ 2) +
    (((a.g : ℝ) - (b.g : ℝ)) ^ 2) +
    (((b.b : ℝ) - (b.b : ℝ)) ^ 2))

/-- Modelled from the spec (§4.8, claim C5): the per-pixel Euclidean RGB
distance `sqrt((a.r−b.r)² + (a.g−b.g)² + (a.b−b.b)²)` the claim describes. -/
noncomputable def colorDistanceSpec (a b : RGB) : ℝ :=
  Real.sqrt ((((a.r : ℝ) - (b.r : ℝ)) ^ 2) +
    (((a.g : ℝ) - (b.g : ℝ)) ^ 2) +
    (((a.b : ℝ) - (b.b : ℝ)) ^ 2))

/-- `imageDataDistance` (src/index.js lines 308-318): the loop over pixel
offsets `i = 0, 4, 8, …`, each 3-byte slice read as an RGB triple. -/
noncomputable def imageDataDistanceLoop (dataA dataB : List ℕ) (i : ℕ) : ℝ :=
  if _h : i < dataA.length then
    colorDistance
        ⟨dataA.getD i 0, dataA.getD (i + 1) 0, dataA.getD (i + 2) 0⟩
        ⟨dataB.getD i 0, dataB.getD (i + 1) 0, dataB.getD (i + 2) 0⟩ +
      imageDataDistanceLoop dataA dataB (i + RGBA_BYTES)
  else 0
termination_by dataA.length - i
decreasing_by
  simp only [RGBA_BYTES]
  omega

noncomputable def imageDataDistance (imgDataA imgDataB : ImageData) : ℝ :=
  imageDataDistanceLoop imgDataA.data imgDataB.data 0

/-- C5 evaluated at the failing input: the code's `colorDistance` between
pure black and pure blue is `0` (the blue term cancels itself), while the
Euclidean distance the claim describes is `255`; a one-pixel image pair
differing only in blue therefore gets `imageDataDistance` `0`. -/
theorem C5_colorDistance_blue_bug :
    colorDistance ⟨0, 0, 0⟩ ⟨0, 0, 255⟩ = 0 ∧
    colorDistanceSpec ⟨0, 0, 0⟩ ⟨0, 0, 255⟩ = 255 ∧
    imageDataDistance ⟨1, 1, [0, 0, 0, 255]⟩ ⟨1, 1, [0, 0, 255, 255]⟩ = 0 := by
  have h1 : colorDistance ⟨0, 0, 0⟩ ⟨0, 0, 255⟩ = 0 := by
    unfold colorDistance
    norm_num
  refine ⟨h1, ?_, ?_⟩
  · have h2 : colorDistanceSpec ⟨0, 0, 0⟩ ⟨0, 0, 255⟩ =
        Real.sqrt (255 ^ 2) := by
      unfold colorDistanceSpec
      norm_num
    rw [h2, Real.sqrt_sq (by norm_num)]
  · unfold imageDataDistance
    rw [imageDataDistanceLoop, dif_pos (by decide)]
    rw [imageDataDistanceLoop, dif_neg (by decide)]
    show colorDistance ⟨0, 0, 0⟩ ⟨0, 0, 255⟩ + 0 = 0
    rw [h1]
    norm_num

/-! ## The hardware colour table (src/nesPalette.js lines 20-96)

The `'00'..'3f'` index strings are modelled by the numbers `0x00..0x3f`,
the `#rrggbb` hex colour strings by their 24-bit values. `lodash.invert`
builds the inverse object by assigning `result[value] = key` over the
entries in order, which the `jsPut` fold reproduces (first-occurrence key
order, last-written value); the canonical-black override then rewrites the
entry for `#000000`. -/

def CANONICAL_BLACK : ℕ := 0x0f

def nesPalette : List (ℕ × ℕ) := [
  (0x00, 0x7c7c7c),
  (0x01, 0x0923f8),
  (0x02, 0x0417b9),
  (0x03, 0x4430b9),
  (0x04, 0x920f82),
  (0x05, 0xa60424),
  (0x06, 0xa6120d),
  (0x07, 0x861508),
  (0x08, 0x4f2f04),
  (0x09, 0x0c770f),
  (0x0a, 0x09670b),
  (0x0b, 0x065707),
  (0x0c, 0x034057),
  (0x0d, 0x000000),
  (0x0e, 0x000000),
  (0x0f, 0x000000),
  (0x10, 0xbcbcbc),
  (0x11, 0x147cf5),
  (0x12, 0x0f5ef4),
  (0x13, 0x684df8),
  (0x14, 0xd61eca),
  (0x15, 0xe20e5a),
  (0x16, 0xf53a1b),
  (0x17, 0xe25c22),
  (0x18, 0xab7b19),
  (0x19, 0x1ab61e),
  (0x1a, 0x17a61a),
  (0x1b, 0x17a749),
  (0x1c, 0x128887),
  (0x1d, 0x000000),
  (0x1e, 0x000000),
  (0x1f, 0x000000),
  (0x20, 0xf8f8f8),
  (0x21, 0x44bdfa),
  (0x22, 0x6a8bf9),
  (0x23, 0x987cf5),
  (0x24, 0xf67df6),
  (0x25, 0xf65b98),
  (0x26, 0xf6785d),
  (0x27, 0xfa9f4e),
  (0x28, 0xf7b72a),
  (0x29, 0xbaf638),
  (0x2a, 0x5dd65b),
  (0x2b, 0x60f69b),
  (0x2c, 0x27e7d8),
  (0x2d, 0x787878),
  (0x2e, 0x000000),
  (0x2f, 0x000000),
  (0x30, 0xfcfcfc),
  (0x31, 0xa6e4fb),
  (0x32, 0xb8b9f6),
  (0x33, 0xd8baf6),
  (0x34, 0xf7baf7),
  (0x35, 0xf7a5c0),
  (0x36, 0xefd0b2),
  (0x37, 0xfbdfab),
  (0x38, 0xf7d77e),
  (0x39, 0xd9f680),
  (0x3a, 0xbaf7ba),
  (0x3b, 0xbaf7d9),
  (0x3c, 0x2cfcfb),
  (0x3d, 0xd8d8d8),
  (0x3e, 0x000000),
  (0x3f, 0x000000)]

/-- `nesPaletteInverted` (src/nesPalette.js lines 95-96): `invert` then the
canonical-black override. -/
def nesPaletteInverted : List (ℕ × ℕ) :=
  jsPut (nesPalette.foldl (fun m e => jsPut m e.2 e.1) [])
    ((jsGet nesPalette CANONICAL_BLACK).getD 0) CANONICAL_BLACK

/-- `normalizeColor` on a hex-colour value (the string case of
`normalizeColor`: parse then shift/mask the three channels). -/
def normalizeColorOfHex (v : ℕ) : RGB :=
  ⟨v / 65536 % 256, v / 256 % 256, v % 256⟩

structure ColorMatchCandidate where
  key : ℕ
  distance : ℝ

/-- `nesColorMatch` (src/nesPalette.js lines 182-199): exact table hit via
the inverted map, otherwise the candidate with the smallest `colorDistance`
after a stable ascending sort (the memoization wrapper adds nothing to a
pure function). -/
noncomputable def nesColorMatch (findColor : RGB) : ℕ :=
  match jsGet nesPaletteInverted (normalizeColorHex findColor) with
  | some key => key
  | none =>
    (((nesPaletteInverted.map (fun e =>
        ({ key := e.2,
           distance := colorDistance
             (normalizeColorOfHex (normalizeColorHex findColor))
             (normalizeColorOfHex e.1) } : ColorMatchCandidate))).mergeSort
        (fun a b =>
          decide (comparatorAscending a.distance b.distance ≤ 0))).headD
      ⟨0, 0⟩).key

theorem normalizeColorHex_normalizeColorOfHex (v : ℕ) (h : v < 16777216) :
    normalizeColorHex (normalizeColorOfHex v) = v := by
  simp only [normalizeColorHex, normalizeColorOfHex, rgb2hex]
  omega

set_option maxRecDepth 40000 in
/-- Every table entry's colour value round-trips through the inverted map:
the looked-up index is the entry's own index, except that every black entry
resolves to the canonical black index. -/
theorem nesPaletteInverted_lookup :
    ∀ p ∈ nesPalette, p.2 < 16777216 ∧
      jsGet nesPaletteInverted p.2 =
        some (if p.2 = 0 then CANONICAL_BLACK else p.1) := by
  decide

/-- C9: an input equal (after normalization) to a hardware table entry maps
to that entry's index — the canonical index for pure black — and
`nesColorMatch` is deterministic across repeated calls. -/
theorem C9_nesColorMatch_exact (p : ℕ × ℕ) (hp : p ∈ nesPalette) :
    nesColorMatch (normalizeColorOfHex p.2) =
      (if p.2 = 0 then CANONICAL_BLACK else p.1) ∧
    ∀ c : RGB, nesColorMatch c = nesColorMatch c := by
  obtain ⟨hlt, hget⟩ := nesPaletteInverted_lookup p hp
  refine ⟨?_, fun c => rfl⟩
  unfold nesColorMatch
  rw [normalizeColorHex_normalizeColorOfHex p.2 hlt, hget]

/-- Concrete instantiation of C9 at the first table entry and at canonical
black. -/
theorem C9_nesColorMatch_exact_witness :
    nesColorMatch (normalizeColorOfHex 0x7c7c7c) =
      (if (0x7c7c7c : ℕ) = 0 then CANONICAL_BLACK else 0x00) ∧
    nesColorMatch (normalizeColorOfHex 0) =
      (if (0 : ℕ) = 0 then CANONICAL_BLACK else 0x0d) :=
  ⟨(C9_nesColorMatch_exact (0x00, 0x7c7c7c) (by decide)).1,
   (C9_nesColorMatch_exact (0x0d, 0x000000) (by decide)).1⟩

/-! ## Candidate subpalettes and background repair (src/index.js 740-788)

```js
// Ensure that all subpalettes contain the background color
Object.keys(subpalettesByKey).forEach((key) => {
  const subpalette = subpalettesByKey[key];
  if (
    subpalette.palette.length < COLORS_PER_SUBPALETTE &&
    subpalette.palette.indexOf(sharedBackgroundColor) < 0
  ) {
    subpalette.palette = subpalette.palette
      .concat([sharedBackgroundColor])
      .sort((a, b) => comparatorAscending(a.color, b.color));
    const newKey = paletteKey(subpalette.palette);
    if (newKey in subpalettesByKey) {
      subpalettesByKey[newKey].tilesUsing += subpalette.tilesUsing;
    } else {
      subpalettesByKey[newKey] = subpalette;
    }
    delete subpalettesByKey[key];
  }
});
```

Colours here are the `[r, g, b]` arrays produced per tile by
`getLocalPalette`; `Array.prototype.indexOf` compares them with `===`,
which for arrays is object identity. A colour is therefore modelled as an
RGB value together with a `ref` tag standing for the identity of the JS
array object (distinct array objects carry distinct tags). The repair
comparator reads `a.color` on such arrays, which is `undefined`, so it
always compares `undefined` with `undefined` and returns
`SORT_A_B_EQUAL`: the stable sort leaves the order unchanged.

A palette key (`paletteKey`: hex strings sorted ascending and
comma-joined) is modelled by the sorted list of the 24-bit hex values —
the join of fixed-width lowercase hex strings is a bijective encoding of
that list, and string order on them agrees with numeric order. -/

def COLORS_PER_SUBPALETTE : ℕ := 4

def SUBPALETTES_PER_IMAGE : ℕ := 4

structure JsColor where
  ref : ℕ
  r : ℕ
  g : ℕ
  b : ℕ
deriving DecidableEq, Repr

/-- `normalizeColorHex` on an `[r, g, b]` colour array. -/
def JsColor.hex (c : JsColor) : ℕ := rgb2hex c.r c.g c.b

structure Subpalette where
  key : List ℕ
  palette : List JsColor
  tilesUsing : ℕ
deriving DecidableEq, Repr

/-- `paletteKey` (src/index.js lines 263-265). -/
def paletteKey (palette : List JsColor) : List ℕ :=
  jsSort comparatorAscending (palette.map JsColor.hex)

/-- The repair guard: the candidate has fewer than 4 colours and its
palette does not contain the shared background colour object
(`indexOf` with `===`, i.e. array identity). -/
def repairFires (sharedBackgroundColor : JsColor)
    (subpalette : Subpalette) : Prop :=
  subpalette.palette.length < COLORS_PER_SUBPALETTE ∧
    sharedBackgroundColor ∉ subpalette.palette

instance repairFires.instDecidable (sharedBackgroundColor : JsColor)
    (subpalette : Subpalette) :
    Decidable (repairFires sharedBackgroundColor subpalette) := by
  unfold repairFires
  infer_instance

/-- The body of the repair `forEach` for one visited key. -/
def repairStep (sharedBackgroundColor : JsColor)
    (subpalettesByKey : List (List ℕ × Subpalette)) (key : List ℕ) :
    List (List ℕ × Subpalette) :=
  match jsGet subpalettesByKey key with
  | none => subpalettesByKey
  | some subpalette =>
    if repairFires sharedBackgroundColor subpalette then
      let newPalette := jsSort (fun _ _ => SORT_A_B_EQUAL)
        (subpalette.palette ++ [sharedBackgroundColor])
      let newKey := paletteKey newPalette
      let merged :=
        if (jsGet subpalettesByKey newKey).isSome then
          subpalettesByKey.map (fun e =>
            if e.1 = newKey then
              (newKey, { e.2 with
                tilesUsing := e.2.tilesUsing + subpalette.tilesUsing })
            else e)
        else
          subpalettesByKey ++
            [(newKey, { subpalette with palette := newPalette })]
      jsDelete merged key
    else subpalettesByKey

/-- The whole repair pass: `Object.keys` is snapshotted before the
`forEach`, so the fold visits exactly the keys present at the start. -/
def repairAll (sharedBackgroundColor : JsColor)
    (subpalettesByKey : List (List ℕ × Subpalette)) :
    List (List ℕ × Subpalette) :=
  (subpalettesByKey.map Prod.fst).foldl
    (repairStep sharedBackgroundColor) subpalettesByKey

/-- The background filter (src/index.js lines 774-778): a fold-based
membership test on colour values. -/
def hasBackgroundColor (sharedBackgroundColor : JsColor)
    (subpalette : Subpalette) : Bool :=
  subpalette.palette.foldl
    (fun acc color =>
      acc || decide (sharedBackgroundColor.hex = color.hex)) false

/-- Lines 770-788 for the non-custom-palette path: collect the repaired
candidates, filter to those containing the background colour, abort when
none remains, then randomly shuffle and truncate the pool. The random
`sort` is abstracted as a `shuffle` function (any permutation). -/
def selectSubpalettes (shuffle : List Subpalette → List Subpalette)
    (sharedBackgroundColor : JsColor)
    (subpalettesByKey : List (List ℕ × Subpalette)) :
    Except String (List Subpalette) :=
  let subpalettes :=
    (repairAll sharedBackgroundColor subpalettesByKey).map Prod.snd
  let filtered := subpalettes.filter (hasBackgroundColor sharedBackgroundColor)
  if filtered.length = 0 then
    Except.error "No color palettes have the background color!"
  else
    Except.ok ((shuffle filtered).take (SUBPALETTES_PER_IMAGE * 8))

/-- The repair comparator always returns `SORT_A_B_EQUAL` (it compares the
`undefined` property `a.color`), so the stable sort is the identity. -/
theorem jsSort_const_equal {α : Type _} (l : List α) :
    jsSort (fun _ _ => SORT_A_B_EQUAL) l = l := by
  unfold jsSort
  apply List.mergeSort_of_sorted
  rw [List.pairwise_iff_getElem]
  intro i j hi hj hij
  simp [SORT_A_B_EQUAL]

theorem jsGet_nil {κ ν : Type _} [DecidableEq κ] (k : κ) :
    jsGet ([] : List (κ × ν)) k = none := rfl

theorem jsGet_cons {κ ν : Type _} [DecidableEq κ] (a : κ × ν)
    (l : List (κ × ν)) (k : κ) :
    jsGet (a :: l) k = if a.1 = k then some a.2 else jsGet l k := by
  unfold jsGet
  by_cases h : a.1 = k
  · rw [List.find?_cons_of_pos _ (by simpa using h), if_pos h]
    rfl
  · rw [List.find?_cons_of_neg _ (by simpa using h), if_neg h]

theorem jsGet_jsDelete_self {κ ν : Type _} [DecidableEq κ]
    (m : List (κ × ν)) (k : κ) : jsGet (jsDelete m k) k = none := by
  unfold jsGet jsDelete
  rw [Option.map_eq_none', List.find?_eq_none]
  intro e he
  rw [List.mem_filter] at he
  simp only [decide_eq_true_eq, ne_eq, decide_not, Bool.not_eq_eq_eq_not,
    Bool.not_true, decide_eq_false_iff_not] at he ⊢
  exact he.2

theorem jsGet_jsDelete_ne {κ ν : Type _} [DecidableEq κ]
    (m : List (κ × ν)) (k k2 : κ) (h : k2 ≠ k) :
    jsGet (jsDelete m k) k2 = jsGet m k2 := by
  induction m with
  | nil => rfl
  | cons e rest ih =>
    unfold jsDelete at ih ⊢
    by_cases hek : e.1 = k
    · rw [List.filter_cons_of_neg (by simpa using hek), ih, jsGet_cons,
        if_neg (by rw [hek]; exact fun hc => h hc.symm)]
    · rw [List.filter_cons_of_pos (by simpa using hek), jsGet_cons,
        jsGet_cons, ih]

theorem jsDelete_map_fst_sublist {κ ν : Type _} [DecidableEq κ]
    (m : List (κ × ν)) (k : κ) :
    ((jsDelete m k).map Prod.fst).Sublist (m.map Prod.fst) :=
  (List.filter_sublist m).map Prod.fst

theorem mem_jsDelete {κ ν : Type _} [DecidableEq κ] {m : List (κ × ν)}
    {k : κ} {e : κ × ν} (h : e ∈ jsDelete m k) : e ∈ m ∧ e.1 ≠ k := by
  unfold jsDelete at h
  rw [List.mem_filter] at h
  simpa using h

theorem assoc_modify_map_fst {κ ν : Type _} [DecidableEq κ]
    (m : List (κ × ν)) (k : κ) (f : ν → ν) :
    (m.map (fun e => if e.1 = k then (k, f e.2) else e)).map Prod.fst =
      m.map Prod.fst := by
  rw [List.map_map]
  apply List.map_congr_left
  intro e _
  simp only [Function.comp_apply]
  by_cases h0 : e.1 = k
  · rw [if_pos h0, h0]
  · rw [if_neg h0]

theorem jsGet_assoc_modify_self {κ ν : Type _} [DecidableEq κ] :
    ∀ (m : List (κ × ν)) (k : κ) (f : ν → ν) (u : ν),
      jsGet m k = some u →
      jsGet (m.map (fun e => if e.1 = k then (k, f e.2) else e)) k =
        some (f u)
  | [], k, f, u, h => by rw [jsGet_nil] at h; exact absurd h (by simp)
  | a :: rest, k, f, u, h => by
    rw [jsGet_cons] at h
    rw [List.map_cons, jsGet_cons]
    by_cases hek : a.1 = k
    · rw [if_pos hek] at h
      rw [Option.some.injEq] at h
      subst h
      rw [if_pos hek]
      simp
    · rw [if_neg hek] at h
      rw [if_neg hek, if_neg hek]
      exact jsGet_assoc_modify_self rest k f u h

theorem jsGet_append_of_none {κ ν : Type _} [DecidableEq κ]
    (m : List (κ × ν)) (k : κ) (v : ν) (h : jsGet m k = none) :
    jsGet (m ++ [(k, v)]) k = some v := by
  unfold jsGet at h ⊢
  rw [List.find?_append, Option.map_eq_none'.mp h]
  simp

theorem repairStep_of_none (bg : JsColor) (m : List (List ℕ × Subpalette))
    (k : List ℕ) (h : jsGet m k = none) : repairStep bg m k = m := by
  unfold repairStep
  rw [h]

theorem repairStep_of_not_fires (bg : JsColor)
    (m : List (List ℕ × Subpalette)) (k : List ℕ) (sp : Subpalette)
    (h : jsGet m k = some sp) (hn : ¬ repairFires bg sp) :
    repairStep bg m k = m := by
  unfold repairStep
  rw [h]
  exact if_neg hn

theorem repairStep_of_fires (bg : JsColor)
    (m : List (List ℕ × Subpalette)) (k : List ℕ) (sp : Subpalette)
    (h : jsGet m k = some sp) (hf : repairFires bg sp) :
    repairStep bg m k =
      jsDelete
        (if (jsGet m (paletteKey (sp.palette ++ [bg]))).isSome then
          m.map (fun e =>
            if e.1 = paletteKey (sp.palette ++ [bg]) then
              (paletteKey (sp.palette ++ [bg]),
               { e.2 with tilesUsing := e.2.tilesUsing + sp.tilesUsing })
            else e)
        else m ++ [(paletteKey (sp.palette ++ [bg]),
          { sp with palette := sp.palette ++ [bg] })]) k := by
  unfold repairStep
  split
  next heq =>
    rw [h] at heq
    exact Option.noConfusion heq
  next sp2 heq =>
    rw [h] at heq
    injection heq with he
    subst he
    rw [if_pos hf]
    simp only [jsSort_const_equal]

theorem jsGet_of_mem_nodup {κ ν : Type _} [DecidableEq κ] :
    ∀ (m : List (κ × ν)), (m.map Prod.fst).Nodup →
      ∀ e ∈ m, jsGet m e.1 = some e.2
  | [], _, e, he => absurd he (List.not_mem_nil e)
  | a :: rest, hnd, e, he => by
    rw [jsGet_cons]
    rcases List.mem_cons.mp he with rfl | he2
    · rw [if_pos rfl]
    · by_cases hak : a.1 = e.1
      · exfalso
        simp only [List.map_cons, List.nodup_cons] at hnd
        exact hnd.1 (hak ▸ List.mem_map_of_mem Prod.fst he2)
      · simp only [List.map_cons, List.nodup_cons] at hnd
        rw [if_neg hak]
        exact jsGet_of_mem_nodup rest hnd.2 e he2

/-- Every entry of a repair step either keeps the palette of an input
entry, or is the repaired entry: the fired palette with the background
appended. -/
theorem repairStep_palette_cases (bg : JsColor)
    (m : List (List ℕ × Subpalette)) (k : List ℕ) :
    ∀ e ∈ repairStep bg m k,
      (∃ e0 ∈ m, e.2.palette = e0.2.palette) ∨
      (∃ sp, jsGet m k = some sp ∧ repairFires bg sp ∧
        e.2.palette = sp.palette ++ [bg]) := by
  intro e he
  cases hg : jsGet m k with
  | none =>
    rw [repairStep_of_none bg m k hg] at he
    exact Or.inl ⟨e, he, rfl⟩
  | some sp =>
    by_cases hf : repairFires bg sp
    · rw [repairStep_of_fires bg m k sp hg hf] at he
      obtain ⟨he2, hkne⟩ := mem_jsDelete he
      by_cases hh : (jsGet m (paletteKey (sp.palette ++ [bg]))).isSome
      · rw [if_pos hh] at he2
        obtain ⟨e0, he0, heq⟩ := List.mem_map.mp he2
        by_cases h0 : e0.1 = paletteKey (sp.palette ++ [bg])
        · rw [if_pos h0] at heq
          subst heq
          exact Or.inl ⟨e0, he0, rfl⟩
        · rw [if_neg h0] at heq
          subst heq
          exact Or.inl ⟨e0, he0, rfl⟩
      · rw [if_neg hh] at he2
        rw [List.mem_append] at he2
        rcases he2 with he2 | he2
        · exact Or.inl ⟨e, he2, rfl⟩
        · rw [List.mem_singleton] at he2
          subst he2
          exact Or.inr ⟨sp, rfl, hf, rfl⟩
    · rw [repairStep_of_not_fires bg m k sp hg hf] at he
      exact Or.inl ⟨e, he, rfl⟩

theorem repairStep_length_le (bg : JsColor)
    (m : List (List ℕ × Subpalette)) (k : List ℕ)
    (hle : ∀ e ∈ m, e.2.palette.length ≤ COLORS_PER_SUBPALETTE) :
    ∀ e ∈ repairStep bg m k,
      e.2.palette.length ≤ COLORS_PER_SUBPALETTE := by
  intro e he
  rcases repairStep_palette_cases bg m k e he with
    ⟨e0, he0, hp⟩ | ⟨sp, hg, hf, hp⟩
  · rw [hp]
    exact hle e0 he0
  · rw [hp, List.length_append]
    have hlt := hf.1
    simp only [List.length_singleton]
    omega

theorem foldl_repairStep_length_le (bg : JsColor) :
    ∀ (ks : List (List ℕ)) (m : List (List ℕ × Subpalette)),
      (∀ e ∈ m, e.2.palette.length ≤ COLORS_PER_SUBPALETTE) →
      ∀ e ∈ ks.foldl (repairStep bg) m,
        e.2.palette.length ≤ COLORS_PER_SUBPALETTE
  | [], m, h => by simpa using h
  | k :: ks, m, h => by
    rw [List.foldl_cons]
    exact foldl_repairStep_length_le bg ks _ (repairStep_length_le bg m k h)

theorem repairStep_map_fst_nodup (bg : JsColor)
    (m : List (List ℕ × Subpalette)) (k : List ℕ)
    (hnd : (m.map Prod.fst).Nodup) :
    ((repairStep bg m k).map Prod.fst).Nodup := by
  cases hg : jsGet m k with
  | none =>
    rw [repairStep_of_none bg m k hg]
    exact hnd
  | some sp =>
    by_cases hf : repairFires bg sp
    · rw [repairStep_of_fires bg m k sp hg hf]
      apply List.Nodup.sublist (jsDelete_map_fst_sublist _ _)
      by_cases hh : (jsGet m (paletteKey (sp.palette ++ [bg]))).isSome
      · rw [if_pos hh]
        have hfst : (m.map (fun e =>
            if e.1 = paletteKey (sp.palette ++ [bg]) then
              (paletteKey (sp.palette ++ [bg]),
               { e.2 with tilesUsing := e.2.tilesUsing + sp.tilesUsing })
            else e)).map Prod.fst = m.map Prod.fst := by
          rw [List.map_map]
          apply List.map_congr_left
          intro e _
          simp only [Function.comp_apply]
          by_cases h0 : e.1 = paletteKey (sp.palette ++ [bg])
          · rw [if_pos h0, h0]
          · rw [if_neg h0]
        rw [hfst]
        exact hnd
      · rw [if_neg hh, List.map_append, List.nodup_append]
        refine ⟨hnd, by simp, ?_⟩
        intro a ha hb
        simp only [List.map_cons, List.map_nil, List.mem_singleton] at hb
        obtain ⟨e0, he0, rfl⟩ := List.mem_map.mp ha
        exact jsGet_eq_none (Option.not_isSome_iff_eq_none.mp hh) e0 he0 hb
    · rw [repairStep_of_not_fires bg m k sp hg hf]
      exact hnd

/-- Key step of the idempotence argument: after visiting key `k`, every
entry whose palette would still fire the repair has its key among the
keys not yet visited. -/
theorem repairStep_fires_key (bg : JsColor)
    (m : List (List ℕ × Subpalette)) (k : List ℕ) (ks : List (List ℕ))
    (hnd : (m.map Prod.fst).Nodup)
    (hI : ∀ e ∈ m, repairFires bg e.2 → e.1 ∈ k :: ks) :
    ∀ e ∈ repairStep bg m k, repairFires bg e.2 → e.1 ∈ ks := by
  intro e he hfe
  cases hg : jsGet m k with
  | none =>
    rw [repairStep_of_none bg m k hg] at he
    rcases List.mem_cons.mp (hI e he hfe) with h1 | h1
    · exact absurd h1 (jsGet_eq_none hg e he)
    · exact h1
  | some sp =>
    by_cases hf : repairFires bg sp
    · rw [repairStep_of_fires bg m k sp hg hf] at he
      obtain ⟨he2, hkne⟩ := mem_jsDelete he
      by_cases hh : (jsGet m (paletteKey (sp.palette ++ [bg]))).isSome
      · rw [if_pos hh] at he2
        obtain ⟨e0, he0, heq⟩ := List.mem_map.mp he2
        by_cases h0 : e0.1 = paletteKey (sp.palette ++ [bg])
        · rw [if_pos h0] at heq
          subst heq
          have hf0 : repairFires bg e0.2 := hfe
          rcases List.mem_cons.mp (hI e0 he0 hf0) with h1 | h1
          · exact absurd (h0.symm.trans h1) hkne
          · exact h0 ▸ h1
        · rw [if_neg h0] at heq
          subst heq
          rcases List.mem_cons.mp (hI e0 he0 hfe) with h1 | h1
          · exact absurd h1 hkne
          · exact h1
      · rw [if_neg hh] at he2
        rw [List.mem_append] at he2
        rcases he2 with he2 | he2
        · rcases List.mem_cons.mp (hI e he2 hfe) with h1 | h1
          · exact absurd h1 hkne
          · exact h1
        · rw [List.mem_singleton] at he2
          subst he2
          exact absurd (List.mem_append_right _ (List.mem_singleton.mpr rfl))
            hfe.2
    · rw [repairStep_of_not_fires bg m k sp hg hf] at he
      rcases List.mem_cons.mp (hI e he hfe) with h1 | h1
      · exfalso
        have := jsGet_of_mem_nodup m hnd e he
        rw [h1, hg] at this
        have hesp : sp = e.2 := Option.some.inj this
        exact hf (hesp.symm ▸ hfe)
      · exact h1

theorem foldl_repairStep_no_fires (bg : JsColor) :
    ∀ (ks : List (List ℕ)) (m : List (List ℕ × Subpalette)),
      (m.map Prod.fst).Nodup →
      (∀ e ∈ m, repairFires bg e.2 → e.1 ∈ ks) →
      ∀ e ∈ ks.foldl (repairStep bg) m, ¬ repairFires bg e.2
  | [], m, _, hI, e, he => fun hf => by simpa using hI e he hf
  | k :: ks, m, hnd, hI, e, he => by
    rw [List.foldl_cons] at he
    exact foldl_repairStep_no_fires bg ks (repairStep bg m k)
      (repairStep_map_fst_nodup bg m k hnd)
      (repairStep_fires_key bg m k ks hnd hI) e he

/-- After one whole repair pass no entry can fire again. -/
theorem repairAll_no_fires (bg : JsColor) (m : List (List ℕ × Subpalette))
    (hnd : (m.map Prod.fst).Nodup) :
    ∀ e ∈ repairAll bg m, ¬ repairFires bg e.2 :=
  foldl_repairStep_no_fires bg (m.map Prod.fst) m hnd
    (fun e he _ => List.mem_map_of_mem Prod.fst he)

theorem repairStep_of_no_fires (bg : JsColor)
    (m : List (List ℕ × Subpalette)) (k : List ℕ)
    (h : ∀ e ∈ m, ¬ repairFires bg e.2) : repairStep bg m k = m := by
  cases hg : jsGet m k with
  | none => exact repairStep_of_none bg m k hg
  | some sp =>
    exact repairStep_of_not_fires bg m k sp hg (h _ (jsGet_mem hg))

theorem foldl_repairStep_of_no_fires (bg : JsColor) :
    ∀ (ks : List (List ℕ)) (m : List (List ℕ × Subpalette)),
      (∀ e ∈ m, ¬ repairFires bg e.2) → ks.foldl (repairStep bg) m = m
  | [], _, _ => rfl
  | k :: ks, m, h => by
    rw [List.foldl_cons, repairStep_of_no_fires bg m k h]
    exact foldl_repairStep_of_no_fires bg ks m h

/-- C7: running the background-repair pass twice on a candidate table whose
members all conform (contain the background colour) gives the same table as
running it once: the second pass changes nothing. -/
theorem C7_repair_idempotent (bg : JsColor)
    (m : List (List ℕ × Subpalette))
    (hnd : (m.map Prod.fst).Nodup)
    (hconf : ∀ e ∈ m, bg.hex ∈ e.2.palette.map JsColor.hex) :
    repairAll bg (repairAll bg m) = repairAll bg m :=
  foldl_repairStep_of_no_fires bg ((repairAll bg m).map Prod.fst)
    (repairAll bg m) (repairAll_no_fires bg m hnd)

/-- Concrete instantiation of C7: a conforming two-candidate table is left
unchanged by a second repair pass. -/
theorem C7_repair_idempotent_witness :
    repairAll ⟨0, 10, 20, 30⟩
      (repairAll ⟨0, 10, 20, 30⟩
        [([rgb2hex 10 20 30],
          ⟨[rgb2hex 10 20 30], [⟨0, 10, 20, 30⟩], 2⟩),
         ([rgb2hex 10 20 30, rgb2hex 1 2 3],
          ⟨[rgb2hex 10 20 30, rgb2hex 1 2 3],
           [⟨1, 1, 2, 3⟩, ⟨2, 10, 20, 30⟩], 1⟩)]) =
      repairAll ⟨0, 10, 20, 30⟩
        [([rgb2hex 10 20 30],
          ⟨[rgb2hex 10 20 30], [⟨0, 10, 20, 30⟩], 2⟩),
         ([rgb2hex 10 20 30, rgb2hex 1 2 3],
          ⟨[rgb2hex 10 20 30, rgb2hex 1 2 3],
           [⟨1, 1, 2, 3⟩, ⟨2, 10, 20, 30⟩], 1⟩)] :=
  C7_repair_idempotent ⟨0, 10, 20, 30⟩ _ (by decide) (by decide)

theorem foldl_or_any {α : Type _} (p : α → Bool) :
    ∀ (l : List α) (acc : Bool),
      l.foldl (fun a c => a || p c) acc = (acc || l.any p)
  | [], acc => by simp
  | c :: l, acc => by
    rw [List.foldl_cons, foldl_or_any p l (acc || p c)]
    simp [Bool.or_assoc]

theorem hasBackgroundColor_iff (bg : JsColor) (sp : Subpalette) :
    hasBackgroundColor bg sp = true ↔ bg.hex ∈ sp.palette.map JsColor.hex := by
  unfold hasBackgroundColor
  rw [foldl_or_any]
  simp only [Bool.false_or, List.any_eq_true, decide_eq_true_eq,
    List.mem_map]
  constructor
  · rintro ⟨c, hc, heq⟩
    exact ⟨c, hc, heq.symm⟩
  · rintro ⟨c, hc, heq⟩
    exact ⟨c, hc, heq.symm⟩

/-- C1: after repair and filtering, the run errors out exactly when the
filtered candidate set is empty, and every subpalette of the assignable
pool (any shuffle, truncated) contains the shared background colour by
colour value and has at most 4 colours. -/
theorem C1_filtered_pool (bg : JsColor)
    (m : List (List ℕ × Subpalette))
    (shuffle : List Subpalette → List Subpalette)
    (hshuffle : ∀ l, (shuffle l).Perm l)
    (hle : ∀ e ∈ m, e.2.palette.length ≤ COLORS_PER_SUBPALETTE) :
    (selectSubpalettes shuffle bg m =
        Except.error "No color palettes have the background color!" ↔
      ((repairAll bg m).map Prod.snd).filter (hasBackgroundColor bg) = []) ∧
    (∀ pool, selectSubpalettes shuffle bg m = Except.ok pool →
      ∀ sp ∈ pool, bg.hex ∈ sp.palette.map JsColor.hex ∧
        sp.palette.length ≤ COLORS_PER_SUBPALETTE) := by
  simp only [selectSubpalettes]
  constructor
  · constructor
    · intro h
      by_cases hz : (((repairAll bg m).map Prod.snd).filter
          (hasBackgroundColor bg)).length = 0
      · exact List.length_eq_zero.mp hz
      · rw [if_neg hz] at h
        exact Except.noConfusion h
    · intro h
      rw [if_pos (by rw [h]; rfl)]
  · intro pool hok sp hsp
    by_cases hz : (((repairAll bg m).map Prod.snd).filter
        (hasBackgroundColor bg)).length = 0
    · rw [if_pos hz] at hok
      exact Except.noConfusion hok
    · rw [if_neg hz] at hok
      injection hok with hpool
      subst hpool
      have h1 := List.mem_of_mem_take hsp
      have h2 := (hshuffle _).subset h1
      rw [List.mem_filter] at h2
      refine ⟨(hasBackgroundColor_iff bg sp).mp h2.2, ?_⟩
      obtain ⟨e, he, rfl⟩ := List.mem_map.mp h2.1
      exact foldl_repairStep_length_le bg (m.map Prod.fst) m hle e he

/-- Concrete instantiation of C1: a one-candidate table whose candidate
holds the background colour yields a pool with that candidate, which
contains the background colour and is within the size bound. -/
theorem C1_filtered_pool_witness :
    JsColor.hex ⟨0, 10, 20, 30⟩ ∈
        (Subpalette.palette
          ⟨[rgb2hex 10 20 30], [⟨0, 10, 20, 30⟩], 2⟩).map JsColor.hex ∧
      (Subpalette.palette
          ⟨[rgb2hex 10 20 30], [⟨0, 10, 20, 30⟩], 2⟩).length ≤
        COLORS_PER_SUBPALETTE :=
  (C1_filtered_pool ⟨0, 10, 20, 30⟩
    [([rgb2hex 10 20 30], ⟨[rgb2hex 10 20 30], [⟨0, 10, 20, 30⟩], 2⟩)]
    id (fun l => List.Perm.refl l) (by decide)).2
    [⟨[rgb2hex 10 20 30], [⟨0, 10, 20, 30⟩], 2⟩] (by rfl)
    ⟨[rgb2hex 10 20 30], [⟨0, 10, 20, 30⟩], 2⟩
    (List.mem_singleton.mpr rfl)

theorem paletteKey_length (p : List JsColor) :
    (paletteKey p).length = p.length := by
  unfold paletteKey jsSort
  rw [List.length_mergeSort, List.length_map]

/-- C6: for a candidate with fewer than 4 colours lacking the background
colour (by colour value), the repair appends the background (a size-`n`
palette becomes size `n + 1` and contains the background), removes the
entry at the stale key, and stores the result under the recomputed
canonical key: merged into a pre-existing entry at that key by summing the
tile-usage counts, or as a fresh entry keeping its own count. -/
theorem C6_repair_candidate (bg : JsColor)
    (m : List (List ℕ × Subpalette)) (k : List ℕ) (sp : Subpalette)
    (hget : jsGet m k = some sp)
    (hkey : k = paletteKey sp.palette)
    (hlen : sp.palette.length < COLORS_PER_SUBPALETTE)
    (hlacks : ∀ c ∈ sp.palette, c.hex ≠ bg.hex) :
    ((sp.palette ++ [bg]).length = sp.palette.length + 1 ∧
      bg ∈ sp.palette ++ [bg]) ∧
    jsGet (repairStep bg m k) k = none ∧
    (∀ other, jsGet m (paletteKey (sp.palette ++ [bg])) = some other →
      jsGet (repairStep bg m k) (paletteKey (sp.palette ++ [bg])) =
        some { other with
          tilesUsing := other.tilesUsing + sp.tilesUsing }) ∧
    (jsGet m (paletteKey (sp.palette ++ [bg])) = none →
      jsGet (repairStep bg m k) (paletteKey (sp.palette ++ [bg])) =
        some { sp with palette := sp.palette ++ [bg] }) := by
  have hf : repairFires bg sp :=
    ⟨hlen, fun hmem => hlacks bg hmem rfl⟩
  have hkne : paletteKey (sp.palette ++ [bg]) ≠ k := by
    intro heq
    have hl1 : (paletteKey (sp.palette ++ [bg])).length =
        sp.palette.length + 1 := by
      rw [paletteKey_length, List.length_append, List.length_singleton]
    have hl2 : k.length = sp.palette.length := by
      rw [hkey, paletteKey_length]
    rw [heq, hl2] at hl1
    omega
  rw [repairStep_of_fires bg m k sp hget hf]
  refine ⟨⟨by simp, List.mem_append_right _ (List.mem_singleton.mpr rfl)⟩,
    jsGet_jsDelete_self _ _, ?_, ?_⟩
  · intro other hother
    rw [jsGet_jsDelete_ne _ _ _ hkne, if_pos (by rw [hother]; rfl)]
    exact jsGet_assoc_modify_self m (paletteKey (sp.palette ++ [bg]))
      (fun v => { v with tilesUsing := v.tilesUsing + sp.tilesUsing })
      other hother
  · intro hnone
    rw [jsGet_jsDelete_ne _ _ _ hkne, if_neg (by rw [hnone]; simp)]
    exact jsGet_append_of_none m _ _ hnone

/-- Concrete instantiation of C6: a size-3 candidate lacking the background
is repaired to a size-4 candidate at the recomputed key with its tile-usage
count preserved, and the stale entry is gone. -/
theorem C6_repair_candidate_witness :
    jsGet
      (repairStep ⟨9, 5, 5, 5⟩
        [(paletteKey [⟨1, 1, 2, 3⟩, ⟨2, 4, 5, 6⟩, ⟨3, 7, 8, 9⟩],
          ⟨paletteKey [⟨1, 1, 2, 3⟩, ⟨2, 4, 5, 6⟩, ⟨3, 7, 8, 9⟩],
           [⟨1, 1, 2, 3⟩, ⟨2, 4, 5, 6⟩, ⟨3, 7, 8, 9⟩], 5⟩)]
        (paletteKey [⟨1, 1, 2, 3⟩, ⟨2, 4, 5, 6⟩, ⟨3, 7, 8, 9⟩]))
      (paletteKey
        ([⟨1, 1, 2, 3⟩, ⟨2, 4, 5, 6⟩, ⟨3, 7, 8, 9⟩] ++ [⟨9, 5, 5, 5⟩])) =
      some
        ⟨paletteKey [⟨1, 1, 2, 3⟩, ⟨2, 4, 5, 6⟩, ⟨3, 7, 8, 9⟩],
         [⟨1, 1, 2, 3⟩, ⟨2, 4, 5, 6⟩, ⟨3, 7, 8, 9⟩] ++ [⟨9, 5, 5, 5⟩], 5⟩ := by
  have hne :
      ¬ (paletteKey
          ([⟨1, 1, 2, 3⟩, ⟨2, 4, 5, 6⟩, ⟨3, 7, 8, 9⟩] : List JsColor) =
        paletteKey
          (([⟨1, 1, 2, 3⟩, ⟨2, 4, 5, 6⟩, ⟨3, 7, 8, 9⟩] : List JsColor) ++
            [⟨9, 5, 5, 5⟩])) := by
    intro heq
    have hlen := congrArg List.length heq
    rw [paletteKey_length, paletteKey_length] at hlen
    simp at hlen
  exact (C6_repair_candidate ⟨9, 5, 5, 5⟩ _ _
      ⟨paletteKey [⟨1, 1, 2, 3⟩, ⟨2, 4, 5, 6⟩, ⟨3, 7, 8, 9⟩],
       [⟨1, 1, 2, 3⟩, ⟨2, 4, 5, 6⟩, ⟨3, 7, 8, 9⟩], 5⟩
      (by rw [jsGet_cons, if_pos rfl]) rfl (by decide) (by decide)).2.2.2
    (by rw [jsGet_cons, if_neg hne, jsGet_nil])

/-! ## Tile assignment (src/index.js lines 798-822)

```js
const tileImgData = ditherImageData(tile.srcImgData, globalPalette, ditherOptions);
const tileImgDataOptions = subpalettes.map((subpalette) => {
  const subpaletteImgData = ditherImageData(tile.srcImgData, subpalette.palette, ditherOptions);
  const distance = imageDataDistance(tileImgData, subpaletteImgData);
  return { distance, subpalette, subpaletteImgData };
})
  .sort((a, b) => comparatorAscending(a.distance, b.distance));
const { subpalette, subpaletteImgData } = tileImgDataOptions[0];
```

The external dithering primitive is a black box: it is abstracted as a
function `dither` from a palette to the dithered image of the (fixed)
tile's source pixels with the (fixed) dither options. -/

structure TileImgDataOption where
  distance : ℝ
  subpalette : Subpalette
  subpaletteImgData : ImageData

noncomputable def chooseTileOptions (dither : List JsColor → ImageData)
    (globalPalette : List JsColor) (subpalettes : List Subpalette) :
    List TileImgDataOption :=
  jsSort (fun a b => comparatorAscending a.distance b.distance)
    (subpalettes.map (fun subpalette =>
      { distance := imageDataDistance (dither globalPalette)
          (dither subpalette.palette)
        subpalette := subpalette
        subpaletteImgData := dither subpalette.palette }))

theorem comparatorAscending_nonpos_iff {α : Type _} [LinearOrder α]
    (x y : α) : comparatorAscending x y ≤ 0 ↔ x ≤ y := by
  unfold comparatorAscending SORT_A_B_EQUAL SORT_A_FIRST SORT_B_FIRST
  by_cases h1 : x = y
  · simp [h1]
  · rw [if_neg h1]
    by_cases h2 : x < y
    · rw [if_pos h2]
      simp only [iff_true_intro (le_of_lt h2), iff_true]
      norm_num
    · rw [if_neg h2]
      constructor
      · intro h
        norm_num at h
      · intro h
        exact absurd (lt_of_le_of_ne h h1) h2

/-- C2: for every tile, the first element of the sorted option list is a
candidate whose dithered tile has minimum `imageDataDistance` to the
full-palette reference, and among ties it is the option built from the
earliest candidate in enumeration order (the first option with the minimal
distance). -/
theorem C2_tile_assignment (dither : List JsColor → ImageData)
    (globalPalette : List JsColor) (subpalettes : List Subpalette)
    (hne : subpalettes ≠ []) (hnd : subpalettes.Nodup) :
    ∀ opts, opts = subpalettes.map (fun subpalette =>
        ({ distance := imageDataDistance (dither globalPalette)
             (dither subpalette.palette)
           subpalette := subpalette
           subpaletteImgData := dither subpalette.palette } :
          TileImgDataOption)) →
      ∃ chosen rest,
        chooseTileOptions dither globalPalette subpalettes = chosen :: rest ∧
        (∀ o ∈ opts, chosen.distance ≤ o.distance) ∧
        opts.find? (fun o => decide (o.distance = chosen.distance)) =
          some chosen := by
  intro opts hopts
  set le := fun a b : TileImgDataOption =>
    decide (comparatorAscending a.distance b.distance ≤ 0) with hle
  have hled : ∀ a b : TileImgDataOption,
      le a b = true ↔ a.distance ≤ b.distance := by
    intro a b
    rw [hle]
    simp only [decide_eq_true_eq]
    exact comparatorAscending_nonpos_iff _ _
  have htrans : ∀ (a b c : TileImgDataOption), le a b → le b c → le a c := by
    intro a b c hab hbc
    rw [hled] at *
    exact le_trans hab hbc
  have htotal : ∀ (a b : TileImgDataOption), le a b || le b a := by
    intro a b
    rw [Bool.or_eq_true]
    rcases le_total a.distance b.distance with h | h
    · exact Or.inl ((hled a b).mpr h)
    · exact Or.inr ((hled b a).mpr h)
  have hchoose : chooseTileOptions dither globalPalette subpalettes =
      opts.mergeSort le := by
    unfold chooseTileOptions jsSort
    rw [← hopts]
  have hoptsne : opts ≠ [] := by
    rw [hopts]
    simpa using hne
  obtain ⟨chosen, rest, hcr⟩ : ∃ c r, opts.mergeSort le = c :: r := by
    cases hms : opts.mergeSort le with
    | nil =>
      exfalso
      have hl := congrArg List.length hms
      rw [List.length_mergeSort] at hl
      exact hoptsne (List.length_eq_zero.mp hl)
    | cons c r => exact ⟨c, r, rfl⟩
  have hsorted := List.sorted_mergeSort htrans htotal opts
  have hperm := List.mergeSort_perm opts le
  refine ⟨chosen, rest, by rw [hchoose, hcr], ?_, ?_⟩
  · intro o ho
    have homem : o ∈ opts.mergeSort le := List.mem_mergeSort.mpr ho
    rw [hcr] at homem
    rcases List.mem_cons.mp homem with rfl | homem2
    · exact le_refl _
    · have hp := hsorted
      rw [hcr] at hp
      exact (hled chosen o).mp ((List.pairwise_cons.mp hp).1 o homem2)
  · have hchosenmem : chosen ∈ opts := by
      have hmm : chosen ∈ opts.mergeSort le := by
        rw [hcr]
        exact List.mem_cons_self _ _
      exact List.mem_mergeSort.mp hmm
    have hissome :
        (opts.find? (fun o => decide (o.distance = chosen.distance))).isSome :=
      List.find?_isSome.mpr ⟨chosen, hchosenmem, by simp⟩
    obtain ⟨x, hx⟩ := Option.isSome_iff_exists.mp hissome
    rw [hx]
    obtain ⟨hpx, l₁, l₂, hsplit, hl₁⟩ := List.find?_eq_some.mp hx
    rw [decide_eq_true_eq] at hpx
    by_cases hxc : x = chosen
    · rw [hxc]
    · exfalso
      have hchosen2 : chosen ∈ x :: l₂ := by
        have hmem2 : chosen ∈ l₁ ++ x :: l₂ := hsplit ▸ hchosenmem
        rcases List.mem_append.mp hmem2 with h1 | h1
        · have := hl₁ chosen h1
          simp at this
        · exact h1
      have hchosen3 : chosen ∈ l₂ := by
        rcases List.mem_cons.mp hchosen2 with h1 | h1
        · exact absurd h1.symm hxc
        · exact h1
      have hsub : List.Sublist [x, chosen] opts := by
        rw [hsplit]
        have h1 : List.Sublist [x, chosen] (x :: l₂) :=
          (List.singleton_sublist.mpr hchosen3).cons₂ x
        exact h1.trans (List.sublist_append_right l₁ _)
      have hlexc : le x chosen := (hled x chosen).mpr (le_of_eq hpx)
      have hpair := List.pair_sublist_mergeSort htrans htotal hlexc hsub
      rw [hcr] at hpair
      have hndopts : opts.Nodup := by
        rw [hopts]
        apply hnd.map
        intro a b hab
        have := congrArg TileImgDataOption.subpalette hab
        simpa using this
      have hndsorted : (opts.mergeSort le).Nodup :=
        hperm.nodup_iff.mpr hndopts
      rw [hcr] at hndsorted
      cases hpair with
      | cons _ h =>
        exact (List.nodup_cons.mp hndsorted).1 (h.subset (by simp))
      | cons₂ _ h => exact hxc rfl

/-- Concrete instantiation of C2 with a single candidate and a constant
dithering primitive. -/
theorem C2_tile_assignment_witness :
    ∃ chosen rest,
      chooseTileOptions (fun _ => ⟨0, 0, []⟩) []
          [⟨[], [⟨0, 1, 2, 3⟩], 1⟩] = chosen :: rest ∧
      (∀ o ∈ [⟨imageDataDistance ⟨0, 0, []⟩ ⟨0, 0, []⟩,
          ⟨[], [⟨0, 1, 2, 3⟩], 1⟩, ⟨0, 0, []⟩⟩],
        chosen.distance ≤ TileImgDataOption.distance o) ∧
      List.find?
        (fun o => decide (TileImgDataOption.distance o = chosen.distance))
        [⟨imageDataDistance ⟨0, 0, []⟩ ⟨0, 0, []⟩,
          ⟨[], [⟨0, 1, 2, 3⟩], 1⟩, ⟨0, 0, []⟩⟩] = some chosen :=
  C2_tile_assignment (fun _ => ⟨0, 0, []⟩) [] [⟨[], [⟨0, 1, 2, 3⟩], 1⟩]
    (by simp) (by simp) _ rfl

/-! ## Background colour resolution (src/index.js 654-662 and 727-737)

```js
if (customPalette) {
  const customPaletteColors = customPalette
    .replace(/[^0-9a-f]/g, '')
    .match(/(.{2})/g)
    .map((key => nesPalette[key]));
  sharedBackgroundColor = customPaletteColors[0];
  ...
}
...
colorsUsed.forEach((color, ranking) => {
  Object.assign(color, { ranking });
});
if (backgroundColor !== false) {
  sharedBackgroundColor = normalizeColor(backgroundColor);
} else if (!sharedBackgroundColor) {
  sharedBackgroundColor = colorsUsed[0].color;
}
```

A JS value that may be a hex-colour string or an `[r, g, b]` array is
modelled as `JsColorValue`; an absent, `undefined` or otherwise falsy value
as `none`. The custom palette string is modelled by its parsed list of
two-hex-digit key values (`match(/(.{2})/g)` output). -/

inductive JsColorValue where
  | hexStr (v : ℕ) : JsColorValue
  | rgb (c : RGB) : JsColorValue
deriving DecidableEq, Repr

structure GlobalColorUsed where
  key : ℕ
  color : RGB
  tilesUsing : ℕ
  pixelsUsing : ℕ
  ranking : ℕ
deriving DecidableEq, Repr

/-- Lines 727-729: each colour record receives its list index as its
`ranking` (`0` = most used). -/
def addRankings (colorsUsed : List GlobalColorUsed) : List GlobalColorUsed :=
  colorsUsed.enum.map (fun ie => { ie.2 with ranking := ie.1 })

/-- The `sharedBackgroundColor` assignments: the custom-palette branch sets
it to the custom palette's first colour; afterwards an explicit override
replaces it, and if it is still unset the top-ranked colour is used. -/
def resolveSharedBackground (backgroundColor : Option RGB)
    (customPalette : Option (List ℕ))
    (colorsUsed : List GlobalColorUsed) : Option JsColorValue :=
  let shared0 : Option JsColorValue :=
    match customPalette with
    | some keys =>
      (keys.head?.bind (fun key => jsGet nesPalette key)).map
        JsColorValue.hexStr
    | none => none
  match backgroundColor with
  | some color => some (JsColorValue.rgb color)
  | none =>
    match shared0 with
    | some v => some v
    | none => (colorsUsed.head?).map (fun r => JsColorValue.rgb r.color)

/-- C8: the shared background colour is resolved by precedence: an explicit
override wins; otherwise the first colour of a supplied custom palette;
otherwise the top-ranked colour of the usage table — which is the record
holding rank 0. -/
theorem C8_background_resolution (backgroundColor : Option RGB)
    (customPalette : Option (List ℕ))
    (colorsUsed : List GlobalColorUsed) :
    (∀ c, backgroundColor = some c →
      resolveSharedBackground backgroundColor customPalette
        (addRankings colorsUsed) = some (JsColorValue.rgb c)) ∧
    (∀ keys hex, backgroundColor = none → customPalette = some keys →
      keys.head?.bind (fun key => jsGet nesPalette key) = some hex →
      resolveSharedBackground backgroundColor customPalette
        (addRankings colorsUsed) = some (JsColorValue.hexStr hex)) ∧
    (∀ r rest, backgroundColor = none → customPalette = none →
      addRankings colorsUsed = r :: rest →
      resolveSharedBackground backgroundColor customPalette
          (addRankings colorsUsed) = some (JsColorValue.rgb r.color) ∧
        r.ranking = 0) := by
  refine ⟨?_, ?_, ?_⟩
  · intro c h
    subst h
    rfl
  · intro keys hex h1 h2 h3
    subst h1
    subst h2
    simp only [resolveSharedBackground, h3, Option.map_some']
  · intro r rest h1 h2 h3
    subst h1
    subst h2
    constructor
    · simp only [resolveSharedBackground, h3, List.head?_cons, Option.map_some']
    · cases colorsUsed with
      | nil => simp [addRankings] at h3
      | cons c cs =>
        rw [show addRankings (c :: cs) =
            { c with ranking := 0 } ::
              ((List.enumFrom 1 cs).map
                (fun ie => { ie.2 with ranking := ie.1 })) from rfl] at h3
        injection h3 with hr _
        rw [← hr]

/-- Concrete instantiation of C8 on all three branches. -/
theorem C8_background_resolution_witness :
    resolveSharedBackground (some ⟨1, 2, 3⟩) (some [0x0f])
        (addRankings []) = some (JsColorValue.rgb ⟨1, 2, 3⟩) ∧
    resolveSharedBackground none (some [0x00]) (addRankings []) =
      some (JsColorValue.hexStr 0x7c7c7c) ∧
    (resolveSharedBackground none none
        (addRankings [⟨5, ⟨9, 9, 9⟩, 1, 2, 7⟩]) =
      some (JsColorValue.rgb (⟨5, ⟨9, 9, 9⟩, 1, 2, 0⟩ :
        GlobalColorUsed).color) ∧
      (⟨5, ⟨9, 9, 9⟩, 1, 2, 0⟩ : GlobalColorUsed).ranking = 0) :=
  ⟨(C8_background_resolution (some ⟨1, 2, 3⟩) (some [0x0f]) []).1
      ⟨1, 2, 3⟩ rfl,
   (C8_background_resolution none (some [0x00]) []).2.1 [0x00] 0x7c7c7c
      rfl rfl (by decide),
   (C8_background_resolution none none [⟨5, ⟨9, 9, 9⟩, 1, 2, 7⟩]).2.2
      ⟨5, ⟨9, 9, 9⟩, 1, 2, 0⟩ [] rfl rfl (by decide)⟩

end Nesify
